import Mathlib

/-
Shallow embedding of the suffix-tree engine from src/include/SuffixTree.h and
src/include/Alphabet.h (namespace custom).  Bytes are modelled as Nat, the
C++ int32_t values as Int (the sizes reachable by the program stay far below
2^31, so wraparound never occurs on the modelled runs).  The two arenas
(std::vector<Node>, std::vector<Edge>) are Lists; vector::operator[] reads
out of range are totalised with a default element and, where a claim is about
such an access, a separate checked variant reports the access instead.
Construction loops that C++ writes as while-loops are given explicit fuel;
running out of fuel yields none.  assert(...) has release semantics (no-op);
the assertion of interest to the claims is tracked by a dedicated function.
-/

namespace SuffixTreeModel

/-- Char-to-index map of the C++ Alphabet template (Alphabet.h, indices()):
letters are enumerated in pack order, the accumulator assigns increasing
indices with later duplicates overwriting earlier ones; bytes that never occur
map to -1. -/
def alphabet_index_of (letters : List Nat) (c : Nat) : Int :=
  (letters.foldl (fun (acc : Int × Int) l =>
    (if l = c then acc.2 else acc.1, acc.2 + 1)) (-1, 0)).1

/-- Alphabet::is_alphabet_of: every byte of the string has index ≥ 0. -/
def is_alphabet_of (letters : List Nat) (str : List Nat) : Bool :=
  str.all (fun c => decide (0 ≤ alphabet_index_of letters c))

/-- The reserved terminal byte (constexpr char terminal_symbol = 0). -/
def terminal_symbol : Nat := 0

/-- SuffixTreeAlphabet<letters...> = Alphabet<terminal_symbol, letters...>. -/
def suffixTreeAlphabet (letters : List Nat) : List Nat :=
  terminal_symbol :: letters

/-- Inner node: suffix connection plus one edge slot per alphabet letter.
The C++ default constructor sets every child slot to no_connection and leaves
suffix_connection uninitialised; the model fixes that field to 0. -/
structure Node where
  suffix_connection : Int
  edges_to_childs : List Int
deriving Repr, DecidableEq

/-- Edge record: label substring [start_position, start_position+length) of the
expanded string and the child reference (negative = leaf).  vector
emplace_back() value-initialises the POD, hence the all-zero fresh edge. -/
structure Edge where
  start_position : Int
  length : Int
  next_node_addr : Int
deriving Repr, DecidableEq

/-- The tree state: the expanded string, the alphabet template argument, the
root reference and both arenas. -/
structure SuffixTree where
  alphabet : List Nat
  expanded_string : List Nat
  root_addr : Int
  node_allocator : List Node
  edge_allocator : List Edge
deriving Repr, DecidableEq

/-- InnerPosition: the active-point iterator {node, edge, position}. -/
structure InnerPosition where
  node_addr : Int
  edge_addr : Int
  position : Int
deriving Repr, DecidableEq

def no_connection : Int := -1

/-- expanded_string[i]; reads outside the buffer are totalised to byte 0. -/
def charAt (s : List Nat) (i : Int) : Nat := s.getD i.toNat 0

def get_node_by (t : SuffixTree) (ref : Int) : Node :=
  t.node_allocator.getD ref.toNat { suffix_connection := 0, edges_to_childs := [] }

def get_edge_by (t : SuffixTree) (ref : Int) : Edge :=
  t.edge_allocator.getD ref.toNat { start_position := 0, length := 0, next_node_addr := 0 }

def set_node (t : SuffixTree) (ref : Int) (nd : Node) : SuffixTree :=
  { t with node_allocator := t.node_allocator.set ref.toNat nd }

def set_edge (t : SuffixTree) (ref : Int) (e : Edge) : SuffixTree :=
  { t with edge_allocator := t.edge_allocator.set ref.toNat e }

/-- node.edges_to_childs[alphabet.index_of(ch)]. -/
def child_of (t : SuffixTree) (node_ref : Int) (ch : Nat) : Int :=
  (get_node_by t node_ref).edges_to_childs.getD
    (alphabet_index_of t.alphabet ch).toNat no_connection

def set_child_slot (t : SuffixTree) (node_ref : Int) (slot : Nat) (edge_ref : Int) : SuffixTree :=
  let nd := get_node_by t node_ref
  set_node t node_ref { nd with edges_to_childs := nd.edges_to_childs.set slot edge_ref }

def set_child (t : SuffixTree) (node_ref : Int) (ch : Nat) (edge_ref : Int) : SuffixTree :=
  set_child_slot t node_ref (alphabet_index_of t.alphabet ch).toNat edge_ref

def set_suffix_connection (t : SuffixTree) (node_ref : Int) (target : Int) : SuffixTree :=
  let nd := get_node_by t node_ref
  set_node t node_ref { nd with suffix_connection := target }

/-- is_leaf: leaves are the negative node references. -/
def is_leaf (ref : Int) : Bool := ref < 0

/-- leaf_num_of: leaf id of a negative reference. -/
def leaf_num_of (ref : Int) : Int := -ref - 1

def allocate_node (t : SuffixTree) : SuffixTree × Int :=
  ({ t with node_allocator := t.node_allocator ++
      [{ suffix_connection := 0,
         edges_to_childs := List.replicate t.alphabet.length no_connection }] },
   (t.node_allocator.length : Int))

def allocate_edge (t : SuffixTree) : SuffixTree × Int :=
  ({ t with edge_allocator := t.edge_allocator ++
      [{ start_position := 0, length := 0, next_node_addr := 0 }] },
   (t.edge_allocator.length : Int))

/-- create_dummy_node: allocate the dummy, self-link it, and give it one
length-1 edge back to the root per alphabet slot (start marked invalid). -/
def create_dummy_node (t : SuffixTree) : SuffixTree × Int :=
  let p := allocate_node t
  let t1 := set_suffix_connection p.1 p.2 p.2
  let t2 := (List.range t1.alphabet.length).foldl (fun acc i =>
      let q := allocate_edge acc
      let a2 := set_edge q.1 q.2
        { start_position := -1, length := 1, next_node_addr := q.1.root_addr }
      set_child_slot a2 p.2 i q.2) t1
  (t2, p.2)

/-- The SuffixTree constructor up to (not including) construct_tree: expand the
source with the terminal byte, allocate root and dummy, link root to dummy. -/
def init_tree (alphabet source : List Nat) : SuffixTree :=
  let t0 : SuffixTree :=
    { alphabet := alphabet, expanded_string := source ++ [terminal_symbol],
      root_addr := 0, node_allocator := [], edge_allocator := [] }
  let p := allocate_node t0
  let t2 := { p.1 with root_addr := p.2 }
  let q := create_dummy_node t2
  set_suffix_connection q.1 q.1.root_addr q.2

def length_to_end_from (t : SuffixTree) (start_pos : Int) : Int :=
  (t.expanded_string.length : Int) - start_pos

def is_position_in_node_without_path (t : SuffixTree) (new_ch_pos : Nat)
    (it : InnerPosition) : Bool :=
  it.position = 0 &&
    child_of t it.node_addr (charAt t.expanded_string (new_ch_pos : Int)) = no_connection

def is_position_in_edge_without_path (t : SuffixTree) (new_ch_pos : Nat)
    (it : InnerPosition) : Bool :=
  if it.position = 0 then false
  else
    let e := get_edge_by t it.edge_addr
    let ch := charAt t.expanded_string (new_ch_pos : Int)
    if charAt t.expanded_string (e.start_position + it.position) = ch then false
    else true

/-- add_node_in: split the iterator's edge at its position, introducing a new
inner node carrying the second half of the label. -/
def add_node_in (t : SuffixTree) (it : InnerPosition) : SuffixTree × Int :=
  let p := allocate_edge t
  let q := allocate_node p.1
  let edge := get_edge_by q.1 it.edge_addr
  let ch_pos := edge.start_position + it.position
  let ch := charAt q.1.expanded_string ch_pos
  let t3 := set_edge q.1 p.2
    { start_position := ch_pos, length := edge.length - it.position,
      next_node_addr := edge.next_node_addr }
  let t4 := set_child t3 q.2 ch p.2
  let t5 := set_edge t4 it.edge_addr
    { start_position := edge.start_position, length := it.position,
      next_node_addr := q.2 }
  (t5, q.2)

/-- create_new_edge_to_leaf_from_node.  The C++ leaf counter is a function-local
static (process-wide); the model threads its value explicitly. -/
def create_new_edge_to_leaf_from_node (t : SuffixTree) (leaf_ctr : Int)
    (new_ch_pos : Nat) (node_addr : Int) : SuffixTree × Int :=
  let new_leaf_addr := leaf_ctr - 1
  let ch := charAt t.expanded_string (new_ch_pos : Int)
  let p := allocate_edge t
  let t2 := set_edge p.1 p.2
    { start_position := (new_ch_pos : Int),
      length := length_to_end_from p.1 (new_ch_pos : Int),
      next_node_addr := new_leaf_addr }
  let t3 := set_child t2 node_addr ch p.2
  (t3, new_leaf_addr)

/-- Skip/count loop of go_using_suffix_connection ("canonize"): while the
position reaches past the current edge, step to the child and re-select the
edge by the next label character.  Fuel bounds the iteration count. -/
def go_skip (t : SuffixTree) (src_start : Int) :
    Nat → Int → InnerPosition → Option InnerPosition
  | 0, _, _ => none
  | fuel + 1, processed, it =>
    let e := get_edge_by t it.edge_addr
    if e.length ≤ it.position then
      let it1 : InnerPosition :=
        { node_addr := e.next_node_addr, edge_addr := it.edge_addr,
          position := it.position - e.length }
      let processed1 := processed + e.length
      if it1.position = 0 then some { it1 with edge_addr := no_connection }
      else
        let ch := charAt t.expanded_string (src_start + processed1)
        go_skip t src_start fuel processed1
          { it1 with edge_addr := child_of t it1.node_addr ch }
    else some it

/-- go_using_suffix_connection: jump over the node's suffix connection, then
rescan the pending label by whole edges. -/
def go_using_suffix_connection (t : SuffixTree) (it : InnerPosition) :
    Option InnerPosition :=
  let src := get_edge_by t it.edge_addr
  let it1 : InnerPosition :=
    { it with node_addr := (get_node_by t it.node_addr).suffix_connection }
  if it1.position = 0 then some { it1 with edge_addr := no_connection }
  else
    let ch := charAt t.expanded_string src.start_position
    let it2 := { it1 with edge_addr := child_of t it1.node_addr ch }
    go_skip t src.start_position (it2.position.toNat + 1) 0 it2

/-- first_stage: Ukkonen rule 1 is a no-op in this source (leaf edges are born
with their final length). -/
def first_stage (_t : SuffixTree) (_new_ch_pos : Nat) (it : InnerPosition) :
    InnerPosition := it

/-- The while-loop of second_stage over gaps inside an edge: split, stitch the
suffix link of the previously created node, hang a leaf, follow the link. -/
def stage2_split_loop :
    Nat → SuffixTree → Int → Nat → Int → InnerPosition →
    Option (SuffixTree × Int × Int × InnerPosition)
  | 0, _, _, _, _, _ => none
  | fuel + 1, t, lc, new_ch_pos, last, it =>
    if is_position_in_edge_without_path t new_ch_pos it then
      let p := add_node_in t it
      let t2 := set_suffix_connection p.1 last p.2
      let q := create_new_edge_to_leaf_from_node t2 lc new_ch_pos p.2
      match go_using_suffix_connection q.1 it with
      | none => none
      | some it1 => stage2_split_loop fuel q.1 q.2 new_ch_pos p.2 it1
    else some (t, lc, last, it)

/-- The while-loop of second_stage over gaps at an inner node: hang a leaf on
the current node and follow the suffix link. -/
def stage2_node_loop :
    Nat → SuffixTree → Int → Nat → InnerPosition →
    Option (SuffixTree × Int × InnerPosition)
  | 0, _, _, _, _ => none
  | fuel + 1, t, lc, new_ch_pos, it =>
    if is_position_in_node_without_path t new_ch_pos it then
      let q := create_new_edge_to_leaf_from_node t lc new_ch_pos it.node_addr
      match go_using_suffix_connection q.1 it with
      | none => none
      | some it1 => stage2_node_loop fuel q.1 q.2 new_ch_pos it1
    else some (t, lc, it)

/-- second_stage: the series of Ukkonen rule-2 branch creations for one input
character, with suffix-link stitching exactly as in the C++ source (last is
seeded with the dummy, whose link value does not matter). -/
def second_stage (t : SuffixTree) (leaf_ctr : Int) (new_ch_pos : Nat)
    (it : InnerPosition) : Option (SuffixTree × Int × InnerPosition) :=
  let last0 := (get_node_by t t.root_addr).suffix_connection
  let first : Option (SuffixTree × Int × Int × InnerPosition) :=
    if is_position_in_edge_without_path t new_ch_pos it then
      let p := add_node_in t it
      let q := create_new_edge_to_leaf_from_node p.1 leaf_ctr new_ch_pos p.2
      match go_using_suffix_connection q.1 it with
      | none => none
      | some it1 => stage2_split_loop (new_ch_pos + 2) q.1 q.2 new_ch_pos p.2 it1
    else some (t, leaf_ctr, last0, it)
  match first with
  | none => none
  | some r =>
    let t2 := set_suffix_connection r.1 r.2.2.1 r.2.2.2.node_addr
    stage2_node_loop (new_ch_pos + 2) t2 r.2.1 new_ch_pos r.2.2.2

/-- go_over_one_letter_next: advance the iterator one character along the tree
(selecting the outgoing edge first when at a node). -/
def go_over_one_letter_next (t : SuffixTree) (ch : Nat) (it : InnerPosition) :
    InnerPosition :=
  let it1 := if it.position = 0
    then { it with edge_addr := child_of t it.node_addr ch } else it
  let e := get_edge_by t it1.edge_addr
  let it2 := { it1 with position := it1.position + 1 }
  if it2.position = e.length then
    { node_addr := e.next_node_addr, edge_addr := no_connection, position := 0 }
  else it2

/-- third_stage: Ukkonen rule 3, one-letter descent on the new character. -/
def third_stage (t : SuffixTree) (new_ch_pos : Nat) (it : InnerPosition) :
    InnerPosition :=
  go_over_one_letter_next t (charAt t.expanded_string (new_ch_pos : Int)) it

/-- The top-level loop of construct_tree over the positions of the expanded
string, applying the three stages in order. -/
def construct_loop :
    List Nat → SuffixTree → Int → InnerPosition →
    Option (SuffixTree × Int × InnerPosition)
  | [], t, lc, it => some (t, lc, it)
  | pos :: rest, t, lc, it =>
    let it0 := first_stage t pos it
    match second_stage t lc pos it0 with
    | none => none
    | some r => construct_loop rest r.1 r.2.1 (third_stage r.1 pos r.2.2)

/-- construct_tree, threading the leaf counter. -/
def construct_tree (t : SuffixTree) (leaf_ctr : Int) : Option (SuffixTree × Int) :=
  (construct_loop (List.range t.expanded_string.length) t leaf_ctr
      { node_addr := t.root_addr, edge_addr := no_connection, position := 0 }).map
    (fun r => (r.1, r.2.1))

/-- Build a tree with a given starting value of the process-wide leaf counter
(the C++ static starts at 0 in a fresh process and is NOT reset per tree). -/
def build_from (alphabet source : List Nat) (leaf_ctr : Int) : Option SuffixTree :=
  (construct_tree (init_tree alphabet source) leaf_ctr).map (fun r => r.1)

/-- Build the first tree of a fresh process (leaf counter 0). -/
def build_tree (alphabet source : List Nat) : Option SuffixTree :=
  build_from alphabet source 0

/-- Leaf counter value after construction (used to model a second build in the
same process, which inherits it). -/
def build_ctr (alphabet source : List Nat) : Option Int :=
  (construct_tree (init_tree alphabet source) 0).map (fun r => r.2)

/-- The per-character loop of index_of (release semantics: the in-loop
assert(!is_leaf(..)) is a no-op).  Returns none for the early -1 exits, and
otherwise the final iterator together with last_edge_addr. -/
def index_of_loop :
    List Nat → SuffixTree → Int → InnerPosition → Option (Int × InnerPosition)
  | [], _, last, it => some (last, it)
  | ch :: rest, t, last, it =>
    let it1 := if it.edge_addr = no_connection
      then { it with edge_addr := child_of t it.node_addr ch } else it
    if it1.edge_addr = no_connection then none
    else
      let e := get_edge_by t it1.edge_addr
      if charAt t.expanded_string (e.start_position + it1.position) = ch then
        let it2 := { it1 with position := it1.position + 1 }
        if e.length = it2.position then
          index_of_loop rest t it1.edge_addr
            { node_addr := e.next_node_addr, edge_addr := no_connection, position := 0 }
        else index_of_loop rest t last it2
      else none

/-- SuffixTree::index_of. -/
def index_of (t : SuffixTree) (pattern : List Nat) : Int :=
  if pattern.length = 0 then 0
  else
    let dummy_addr := (get_node_by t t.root_addr).suffix_connection
    let last0 := (get_node_by t dummy_addr).edges_to_childs.getD 0 no_connection
    match index_of_loop pattern t last0
        { node_addr := t.root_addr, edge_addr := no_connection, position := 0 } with
    | none => -1
    | some r =>
      let sel : Int × Int :=
        if r.2.edge_addr = no_connection then (r.1, (get_edge_by t r.1).length)
        else (r.2.edge_addr, r.2.position)
      (get_edge_by t sel.1).start_position + sel.2 - (pattern.length : Int)

/-- SuffixTree::contains. -/
def contains (t : SuffixTree) (pattern : List Nat) : Bool :=
  index_of t pattern != -1

/-- State-threaded rendering of the index_of loop: the tree flows through the
recursion exactly as the (const) C++ member function sees the object, making
the absence of mutation a provable statement rather than a typing artefact. -/
def index_of_loopS :
    List Nat → SuffixTree → Int → InnerPosition →
    Option (Int × InnerPosition) × SuffixTree
  | [], t, last, it => (some (last, it), t)
  | ch :: rest, t, last, it =>
    let it1 := if it.edge_addr = no_connection
      then { it with edge_addr := child_of t it.node_addr ch } else it
    if it1.edge_addr = no_connection then (none, t)
    else
      let e := get_edge_by t it1.edge_addr
      if charAt t.expanded_string (e.start_position + it1.position) = ch then
        let it2 := { it1 with position := it1.position + 1 }
        if e.length = it2.position then
          index_of_loopS rest t it1.edge_addr
            { node_addr := e.next_node_addr, edge_addr := no_connection, position := 0 }
        else index_of_loopS rest t last it2
      else (none, t)

/-- State-threaded index_of: result together with the tree state after the
query. -/
def index_ofS (t : SuffixTree) (pattern : List Nat) : Int × SuffixTree :=
  if pattern.length = 0 then (0, t)
  else
    let dummy_addr := (get_node_by t t.root_addr).suffix_connection
    let last0 := (get_node_by t dummy_addr).edges_to_childs.getD 0 no_connection
    match index_of_loopS pattern t last0
        { node_addr := t.root_addr, edge_addr := no_connection, position := 0 } with
    | (none, t1) => (-1, t1)
    | (some r, t1) =>
      let sel : Int × Int :=
        if r.2.edge_addr = no_connection then (r.1, (get_edge_by t1 r.1).length)
        else (r.2.edge_addr, r.2.position)
      ((get_edge_by t1 sel.1).start_position + sel.2 - (pattern.length : Int), t1)

/-- State-threaded contains. -/
def containsS (t : SuffixTree) (pattern : List Nat) : Bool × SuffixTree :=
  let r := index_ofS t pattern
  (r.1 != -1, r.2)

/-- Checked child lookup: reports (none) the out-of-bounds array access
node.edges_to_childs[alphabet.index_of(ch)] that the C++ performs when
alphabet.index_of(ch) is -1 (or otherwise outside the child array). -/
def checked_child_of (t : SuffixTree) (node_ref : Int) (ch : Nat) : Option Int :=
  let idx := alphabet_index_of t.alphabet ch
  let nd := get_node_by t node_ref
  if 0 ≤ idx ∧ idx.toNat < nd.edges_to_childs.length then
    some (nd.edges_to_childs.getD idx.toNat no_connection)
  else none

/-- index_of loop with checked child lookups.  The outer none marks the point
where the C++ reads the child array out of bounds (undefined behaviour); the
inner none is the clean early -1 return. -/
def index_of_checked_loop :
    List Nat → SuffixTree → Int → InnerPosition →
    Option (Option (Int × InnerPosition))
  | [], _, last, it => some (some (last, it))
  | ch :: rest, t, last, it =>
    let sel : Option InnerPosition :=
      if it.edge_addr = no_connection then
        match checked_child_of t it.node_addr ch with
        | none => none
        | some e => some { it with edge_addr := e }
      else some it
    match sel with
    | none => none
    | some it1 =>
      if it1.edge_addr = no_connection then some none
      else
        let e := get_edge_by t it1.edge_addr
        if charAt t.expanded_string (e.start_position + it1.position) = ch then
          let it2 := { it1 with position := it1.position + 1 }
          if e.length = it2.position then
            index_of_checked_loop rest t it1.edge_addr
              { node_addr := e.next_node_addr, edge_addr := no_connection, position := 0 }
          else index_of_checked_loop rest t last it2
        else some none

/-- index_of with checked child-array accesses: none means the query executed
an out-of-bounds child-array read (undefined behaviour in the C++), some r
means the query returned r without such an access. -/
def index_of_checked (t : SuffixTree) (pattern : List Nat) : Option Int :=
  if pattern.length = 0 then some 0
  else
    let dummy_addr := (get_node_by t t.root_addr).suffix_connection
    let last0 := (get_node_by t dummy_addr).edges_to_childs.getD 0 no_connection
    match index_of_checked_loop pattern t last0
        { node_addr := t.root_addr, edge_addr := no_connection, position := 0 } with
    | none => none
    | some none => some (-1)
    | some (some r) =>
      let sel : Int × Int :=
        if r.2.edge_addr = no_connection then (r.1, (get_edge_by t r.1).length)
        else (r.2.edge_addr, r.2.position)
      some ((get_edge_by t sel.1).start_position + sel.2 - (pattern.length : Int))

/-- Tracker for the in-loop assertion of index_of
(assert(!is_leaf(iterator.node_addr))): true iff during the walk some fully
traversed edge leads to a leaf reference, i.e. the assertion fires. -/
def leaf_hit_loop : List Nat → SuffixTree → InnerPosition → Bool
  | [], _, _ => false
  | ch :: rest, t, it =>
    let it1 := if it.edge_addr = no_connection
      then { it with edge_addr := child_of t it.node_addr ch } else it
    if it1.edge_addr = no_connection then false
    else
      let e := get_edge_by t it1.edge_addr
      if charAt t.expanded_string (e.start_position + it1.position) = ch then
        let it2 := { it1 with position := it1.position + 1 }
        if e.length = it2.position then
          if is_leaf e.next_node_addr then true
          else leaf_hit_loop rest t
            { node_addr := e.next_node_addr, edge_addr := no_connection, position := 0 }
        else leaf_hit_loop rest t it2
      else false

/-- True iff index_of on this pattern ever moves the iterator onto a leaf
reference after fully traversing an edge (the condition whose negation the
C++ asserts inside the loop). -/
def index_of_leaf_hit (t : SuffixTree) (pattern : List Nat) : Bool :=
  if pattern.length = 0 then false
  else leaf_hit_loop pattern t
    { node_addr := t.root_addr, edge_addr := no_connection, position := 0 }

/-- A small concrete instance: the tree over SuffixTreeAlphabet<1> (bytes
{0, 1}) built from the one-byte source [1]. -/
def tree_1 : SuffixTree :=
  (build_tree (suffixTreeAlphabet [1]) [1]).getD (init_tree (suffixTreeAlphabet [1]) [1])

/-- Arena invariant on edges: every allocated edge has length at least 1, and
every edge whose child is a leaf ends exactly at the end of the expanded
string (leaf edges are created with length = N - start and edge splits keep
the right half ending at N). -/
def EdgesGood (t : SuffixTree) : Prop :=
  ∀ e ∈ t.edge_allocator,
    1 ≤ e.length ∧
      (e.next_node_addr < 0 →
        e.start_position + e.length = (t.expanded_string.length : Int))

/-- Arena invariant on nodes: every child slot of every allocated node is
either no_connection or a valid index into the edge arena. -/
def NodesGood (t : SuffixTree) : Prop :=
  ∀ nd ∈ t.node_allocator, ∀ r ∈ nd.edges_to_childs,
    r = no_connection ∨ (0 ≤ r ∧ r.toNat < t.edge_allocator.length)

/-- Active-point sanity between construction steps: the position is
nonnegative, and a strictly positive position lies strictly inside an
allocated edge. -/
def ItOK (t : SuffixTree) (it : InnerPosition) : Prop :=
  0 ≤ it.position ∧
    (0 < it.position →
      it.edge_addr.toNat < t.edge_allocator.length ∧
        it.position < (get_edge_by t it.edge_addr).length)

/-- Query-iterator sanity for the index_of loop: position 0 when no edge is
selected, otherwise a position strictly inside an allocated edge. -/
def QIt (t : SuffixTree) (it : InnerPosition) : Prop :=
  0 ≤ it.position ∧
    (it.edge_addr = no_connection → it.position = 0) ∧
    (it.edge_addr ≠ no_connection →
      it.edge_addr.toNat < t.edge_allocator.length ∧
        it.position < (get_edge_by t it.edge_addr).length)

/-- Node references agree up to the concrete value of a leaf id: either equal,
or both leaf references (negative).  Two constructions that differ only in the
starting value of the process-wide leaf counter stay in this relation. -/
def RelRef (r r' : Int) : Prop := r = r' ∨ (r < 0 ∧ r' < 0)

/-- Nodes agree up to leaf ids: the child arrays are identical (child slots
always hold edge-arena indices) and the suffix connections are related node
references. -/
def RelNode (n n' : Node) : Prop :=
  RelRef n.suffix_connection n'.suffix_connection ∧
    n.edges_to_childs = n'.edges_to_childs

/-- Edges agree up to leaf ids: label identical, child references related. -/
def RelEdge (e e' : Edge) : Prop :=
  e.start_position = e'.start_position ∧ e.length = e'.length ∧
    RelRef e.next_node_addr e'.next_node_addr

/-- Whole-tree agreement up to leaf ids. -/
def RelTree (t t' : SuffixTree) : Prop :=
  t.alphabet = t'.alphabet ∧ t.expanded_string = t'.expanded_string ∧
    t.root_addr = t'.root_addr ∧
    List.Forall₂ RelNode t.node_allocator t'.node_allocator ∧
    List.Forall₂ RelEdge t.edge_allocator t'.edge_allocator

/-- Iterator agreement up to leaf ids (edge references and positions always
coincide). -/
def RelIt (it it' : InnerPosition) : Prop :=
  RelRef it.node_addr it'.node_addr ∧ it.edge_addr = it'.edge_addr ∧
    it.position = it'.position

/-- Lifts a relation to Option: both absent, or both present and related. -/
def OptRel {α β : Type} (R : α → β → Prop) : Option α → Option β → Prop
  | none, none => True
  | some a, some b => R a b
  | _, _ => False

/-- children slot s of the node at arena index i (no_connection when out of
range). -/
def childAt (t : SuffixTree) (i s : Nat) : Int :=
  (t.node_allocator.getD i
    { suffix_connection := 0, edges_to_childs := [] }).edges_to_childs.getD s
    no_connection

/-- Every node's child array has exactly one slot per alphabet letter. -/
def PLenK (t : SuffixTree) : Prop :=
  ∀ nd ∈ t.node_allocator, nd.edges_to_childs.length = t.alphabet.length

/-- The dummy node (index 1) and its edges are exactly as create_dummy_node
built them: one length-1 edge to the root per alphabet letter, the edge at
arena index i sitting in child slot i.  These records are never mutated. -/
def DummyOK (t : SuffixTree) : Prop :=
  1 ≤ t.alphabet.length ∧ 2 ≤ t.node_allocator.length ∧
    t.root_addr = 0 ∧
    (∀ i, i < t.alphabet.length → childAt t 1 i = (i : Int)) ∧
    (∀ i, i < t.alphabet.length → get_edge_by t (i : Int) =
      { start_position := -1, length := 1, next_node_addr := 0 })

/-- Every stored child reference points below the node-arena bound. -/
def NextBound (t : SuffixTree) : Prop :=
  ∀ e ∈ t.edge_allocator, e.next_node_addr < (t.node_allocator.length : Int)

/-- Every stored suffix connection points below the node-arena bound. -/
def LinkBound (t : SuffixTree) : Prop :=
  ∀ nd ∈ t.node_allocator, nd.suffix_connection < (t.node_allocator.length : Int)

/-- Each edge is the child of at most one (node, slot) pair. -/
def ParentUnique (t : SuffixTree) : Prop :=
  ∀ i1 s1 i2 s2, 0 ≤ childAt t i1 s1 → childAt t i1 s1 = childAt t i2 s2 →
    i1 = i2 ∧ s1 = s2

/-- The non-ghost part of the termination invariant. -/
def SInv (t : SuffixTree) : Prop :=
  EdgesGood t ∧ NodesGood t ∧ PLenK t ∧ DummyOK t ∧ NextBound t ∧
    LinkBound t ∧ ParentUnique t

/-- Ghost node-depth function witnessing that child edges only deepen by their
length, and suffix connections lose at least one unit of depth (root depth 0,
dummy depth -1, out-of-range indices pegged at 1). -/
def DepthOK (t : SuffixTree) (d : Nat → Int) : Prop :=
  d 0 = 0 ∧ d 1 = -1 ∧
    (∀ m, t.node_allocator.length ≤ m → d m = 1) ∧
    (∀ v, v < t.node_allocator.length → v ≠ 1 → 0 ≤ d v) ∧
    (∀ v s, v < t.node_allocator.length → 0 ≤ childAt t v s →
      d ((get_edge_by t (childAt t v s)).next_node_addr.toNat) ≤
        d v + (get_edge_by t (childAt t v s)).length) ∧
    (∀ v, v < t.node_allocator.length → v ≠ 1 →
      d ((t.node_allocator.getD v
        { suffix_connection := 0, edges_to_childs := [] }).suffix_connection.toNat) ≤
        d v - 1)

/-- Iterator-side termination invariant: active-point sanity, the active edge
really is a child of the active node, and the node reference is below the
arena bound. -/
def ItInv (t : SuffixTree) (it : InnerPosition) : Prop :=
  ItOK t it ∧
    (0 < it.position → ∃ s, childAt t it.node_addr.toNat s = it.edge_addr) ∧
    it.node_addr < (t.node_allocator.length : Int)

/-- The root's suffix connection permanently points at the dummy (index 1):
suffix-link stitches only ever write split nodes or the dummy itself. -/
def RootLinkOK (t : SuffixTree) : Prop :=
  (t.node_allocator.getD 0
    { suffix_connection := 0, edges_to_childs := [] }).suffix_connection = 1

theorem index_of_loopS_eq (p : List Nat) (t : SuffixTree) (last : Int)
    (it : InnerPosition) :
    index_of_loopS p t last it = (index_of_loop p t last it, t) := by
  induction p generalizing last it with
  | nil => rfl
  | cons ch rest ih =>
    simp only [index_of_loopS, index_of_loop]
    repeat' split
    all_goals first | rfl | exact ih ..

/-- Claim C9: index_of and contains leave the tree completely unchanged: the
state-threaded renderings of both queries return the unmodified tree together
with exactly the value of the pure query (the locator keeps all traversal
state in the local iterator value). -/
theorem queries_leave_tree_unchanged (t : SuffixTree) (p : List Nat) :
    index_ofS t p = (index_of t p, t) ∧ containsS t p = (contains t p, t) := by
  have hloop : ∀ last it, index_of_loopS p t last it = (index_of_loop p t last it, t) :=
    fun last it => index_of_loopS_eq p t last it
  have hidx : index_ofS t p = (index_of t p, t) := by
    simp only [index_ofS, index_of, hloop]
    split
    next => rfl
    next =>
      cases h : index_of_loop p t
          ((get_node_by t ((get_node_by t t.root_addr).suffix_connection)).edges_to_childs.getD 0
            no_connection)
          { node_addr := t.root_addr, edge_addr := no_connection, position := 0 } with
      | none => rfl
      | some r => rfl
  refine ⟨hidx, ?_⟩
  simp only [containsS, contains, hidx]

/-- Claim C8: for every tree built from a valid source, index_of of the empty
pattern returns 0. -/
theorem index_of_empty_pattern (alphabet source : List Nat) (t : SuffixTree)
    (_h : build_tree alphabet source = some t) : index_of t [] = 0 := by
  simp [index_of]

theorem index_of_empty_pattern_witness : index_of tree_1 [] = 0 :=
  index_of_empty_pattern (suffixTreeAlphabet [1]) [1] tree_1 (by decide)

/-- Claim C10: the constructor validates only that every byte of the expanded
string is in the alphabet; the terminal byte is always a member of a
SuffixTreeAlphabet, so the source [1, 0] - which contains the terminal byte -
passes the is_alphabet_of check and construction runs to completion without
any precondition-violation report. -/
theorem terminal_in_source_passes_validation :
    terminal_symbol ∈ ([1, terminal_symbol] : List Nat) ∧
    is_alphabet_of (suffixTreeAlphabet [1])
      (([1, terminal_symbol] : List Nat) ++ [terminal_symbol]) = true ∧
    (build_tree (suffixTreeAlphabet [1]) [1, terminal_symbol]).isSome = true := by
  decide

/-- Claim C1 (failing input): on the valid source [1] over SuffixTreeAlphabet<1>
the pattern [1, 0] - the source followed by the terminal byte - is not a
substring of the source, yet index_of returns 0 and contains returns true. -/
theorem contains_true_on_non_substring :
    build_tree (suffixTreeAlphabet [1]) [1] = some tree_1 ∧
    index_of tree_1 [1, terminal_symbol] = 0 ∧
    contains tree_1 [1, terminal_symbol] = true ∧
    ¬ List.IsInfix [1, terminal_symbol] ([1] : List Nat) := by
  refine ⟨by decide, by decide, by decide, ?_⟩
  intro h
  have := h.length_le
  simp at this

/-- Claim C2 (failing input): the byte 2 is outside the alphabet {0, 1}
(alphabet_index_of yields -1), and on the query [2] the locator indexes the
child array with that -1: an out-of-bounds read (undefined behaviour), not the
clean -1 return the claim describes.  The checked model reports the access. -/
theorem out_of_alphabet_query_reads_out_of_bounds :
    alphabet_index_of (suffixTreeAlphabet [1]) 2 = -1 ∧
    build_tree (suffixTreeAlphabet [1]) [1] = some tree_1 ∧
    index_of_checked tree_1 [2] = none := by
  decide

/-- Claim C4 (counterexample): the in-loop assertion of index_of is not valid
for every pattern: on the tree over source [1], querying [1, 0] descends past
the end of the leaf edge and the node reached is a leaf reference. -/
theorem locator_reaches_leaf_on_terminal_pattern :
    build_tree (suffixTreeAlphabet [1]) [1] = some tree_1 ∧
    index_of_leaf_hit tree_1 [1, terminal_symbol] = true := by
  decide

theorem getD_lt {α : Type} (l : List α) (n : Nat) (d : α) (h : n < l.length) :
    l.getD n d = l[n] := by
  simp [List.getD_eq_getElem?_getD, List.getElem?_eq_getElem h]

theorem getD_ge {α : Type} (l : List α) (n : Nat) (d : α) (h : l.length ≤ n) :
    l.getD n d = d := by
  simp [List.getD_eq_getElem?_getD, List.getElem?_eq_none h]

theorem getD_mem {α : Type} (l : List α) (n : Nat) (d : α) (h : n < l.length) :
    l.getD n d ∈ l := by
  rw [getD_lt l n d h]; exact List.getElem_mem h

theorem set_append_last {α : Type} (l : List α) (a b : α) :
    (l ++ [a]).set l.length b = l ++ [b] := by
  simp [List.set_append]

theorem set_append_lt {α : Type} (l l2 : List α) (n : Nat) (h : n < l.length) (b : α) :
    (l ++ l2).set n b = l.set n b ++ l2 := by
  simp [List.set_append, h]

theorem get_edge_mem (t : SuffixTree) (r : Int)
    (h : r.toNat < t.edge_allocator.length) :
    get_edge_by t r ∈ t.edge_allocator :=
  getD_mem _ _ _ h

theorem get_edge_oor (t : SuffixTree) (r : Int)
    (h : t.edge_allocator.length ≤ r.toNat) :
    get_edge_by t r = { start_position := 0, length := 0, next_node_addr := 0 } :=
  getD_ge _ _ _ h

theorem get_node_mem (t : SuffixTree) (r : Int)
    (h : r.toNat < t.node_allocator.length) :
    get_node_by t r ∈ t.node_allocator :=
  getD_mem _ _ _ h

theorem get_node_oor (t : SuffixTree) (r : Int)
    (h : t.node_allocator.length ≤ r.toNat) :
    get_node_by t r = { suffix_connection := 0, edges_to_childs := [] } :=
  getD_ge _ _ _ h

theorem EdgesGood_set_node (t : SuffixTree) (r : Int) (nd : Node)
    (h : EdgesGood t) : EdgesGood (set_node t r nd) := h

theorem ItOK_set_node (t : SuffixTree) (r : Int) (nd : Node) (it : InnerPosition)
    (h : ItOK t it) : ItOK (set_node t r nd) it := h

theorem NodesGood_set_node (t : SuffixTree) (r : Int) (nd : Node)
    (h : NodesGood t)
    (hnd : ∀ x ∈ nd.edges_to_childs,
      x = no_connection ∨ (0 ≤ x ∧ x.toNat < t.edge_allocator.length)) :
    NodesGood (set_node t r nd) := by
  intro m hm x hx
  rcases List.mem_or_eq_of_mem_set hm with hm1 | hm1
  · exact h m hm1 x hx
  · exact hnd x (hm1 ▸ hx)

theorem NodesGood_set_suffix_connection (t : SuffixTree) (r target : Int)
    (h : NodesGood t) : NodesGood (set_suffix_connection t r target) := by
  unfold set_suffix_connection
  refine NodesGood_set_node t r _ h ?_
  intro x hx
  by_cases hr : r.toNat < t.node_allocator.length
  · exact h (get_node_by t r) (get_node_mem t r hr) x hx
  · rw [get_node_oor t r (le_of_not_lt hr)] at hx
    simp at hx

theorem NodesGood_set_child_slot (t : SuffixTree) (r : Int) (slot : Nat)
    (eref : Int) (h : NodesGood t)
    (he : eref = no_connection ∨ (0 ≤ eref ∧ eref.toNat < t.edge_allocator.length)) :
    NodesGood (set_child_slot t r slot eref) := by
  unfold set_child_slot
  refine NodesGood_set_node t r _ h ?_
  intro x hx
  by_cases hr : r.toNat < t.node_allocator.length
  · rcases List.mem_or_eq_of_mem_set hx with hx1 | hx1
    · exact h (get_node_by t r) (get_node_mem t r hr) x hx1
    · exact hx1 ▸ he
  · rw [get_node_oor t r (le_of_not_lt hr)] at hx
    simp at hx

theorem NodesGood_set_child (t : SuffixTree) (r : Int) (ch : Nat) (eref : Int)
    (h : NodesGood t)
    (he : eref = no_connection ∨ (0 ≤ eref ∧ eref.toNat < t.edge_allocator.length)) :
    NodesGood (set_child t r ch eref) :=
  NodesGood_set_child_slot t r _ eref h he

theorem NodesGood_set_edge (t : SuffixTree) (r : Int) (e : Edge)
    (h : NodesGood t) : NodesGood (set_edge t r e) := by
  intro nd hnd x hx
  have := h nd hnd x hx
  simpa [set_edge] using this

theorem NodesGood_allocate_edge (t : SuffixTree) (h : NodesGood t) :
    NodesGood (allocate_edge t).1 := by
  intro nd hnd x hx
  rcases h nd hnd x hx with h1 | h1
  · exact Or.inl h1
  · refine Or.inr ⟨h1.1, ?_⟩
    simp only [allocate_edge, List.length_append, List.length_cons, List.length_nil]
    omega

theorem NodesGood_allocate_node (t : SuffixTree) (h : NodesGood t) :
    NodesGood (allocate_node t).1 := by
  intro nd hnd x hx
  rcases List.mem_append.mp hnd with h1 | h1
  · exact h nd h1 x hx
  · simp only [List.mem_singleton] at h1
    subst h1
    simp only [List.mem_replicate] at hx
    exact Or.inl hx.2

theorem getD_append_lt {α : Type} (l l2 : List α) (n : Nat) (d : α)
    (h : n < l.length) : (l ++ l2).getD n d = l.getD n d := by
  simp [List.getD_eq_getElem?_getD, List.getElem?_append, h]

theorem create_leaf_edges (t : SuffixTree) (lc : Int) (pos : Nat) (nd : Int) :
    (create_new_edge_to_leaf_from_node t lc pos nd).1.edge_allocator =
      t.edge_allocator ++
        [{ start_position := (pos : Int),
           length := (t.expanded_string.length : Int) - (pos : Int),
           next_node_addr := lc - 1 }] := by
  simp only [create_new_edge_to_leaf_from_node, allocate_edge, set_edge, set_child,
    set_child_slot, set_node, length_to_end_from, Int.toNat_natCast]
  exact set_append_last ..

theorem create_leaf_expanded (t : SuffixTree) (lc : Int) (pos : Nat) (nd : Int) :
    (create_new_edge_to_leaf_from_node t lc pos nd).1.expanded_string =
      t.expanded_string := rfl

theorem create_leaf_alphabet (t : SuffixTree) (lc : Int) (pos : Nat) (nd : Int) :
    (create_new_edge_to_leaf_from_node t lc pos nd).1.alphabet = t.alphabet := rfl

theorem create_leaf_root (t : SuffixTree) (lc : Int) (pos : Nat) (nd : Int) :
    (create_new_edge_to_leaf_from_node t lc pos nd).1.root_addr = t.root_addr := rfl

theorem create_leaf_ctr (t : SuffixTree) (lc : Int) (pos : Nat) (nd : Int) :
    (create_new_edge_to_leaf_from_node t lc pos nd).2 = lc - 1 := rfl

theorem EdgesGood_create_leaf (t : SuffixTree) (lc : Int) (pos : Nat) (nd : Int)
    (h : EdgesGood t) (hpos : pos < t.expanded_string.length) :
    EdgesGood (create_new_edge_to_leaf_from_node t lc pos nd).1 := by
  intro e he
  rw [create_leaf_edges] at he
  rw [create_leaf_expanded]
  rcases List.mem_append.mp he with h1 | h1
  · exact h e h1
  · simp only [List.mem_singleton] at h1
    subst h1
    constructor
    · simp only []
      omega
    · intro _
      simp only []
      ring

theorem NodesGood_create_leaf (t : SuffixTree) (lc : Int) (pos : Nat) (nd : Int)
    (h : NodesGood t) :
    NodesGood (create_new_edge_to_leaf_from_node t lc pos nd).1 := by
  unfold create_new_edge_to_leaf_from_node
  refine NodesGood_set_child _ _ _ _ ?_ (Or.inr ⟨Int.natCast_nonneg _, ?_⟩)
  · exact NodesGood_set_edge _ _ _ (NodesGood_allocate_edge t h)
  · simp only [set_edge, allocate_edge, Int.toNat_natCast, List.length_set,
      List.length_append, List.length_cons, List.length_nil]
    omega

theorem add_node_in_edges (t : SuffixTree) (it : InnerPosition)
    (hv : it.edge_addr.toNat < t.edge_allocator.length) :
    (add_node_in t it).1.edge_allocator =
      (t.edge_allocator.set it.edge_addr.toNat
        { start_position := (get_edge_by t it.edge_addr).start_position,
          length := it.position,
          next_node_addr := (t.node_allocator.length : Int) }) ++
      [{ start_position := (get_edge_by t it.edge_addr).start_position + it.position,
         length := (get_edge_by t it.edge_addr).length - it.position,
         next_node_addr := (get_edge_by t it.edge_addr).next_node_addr }] := by
  have hg : ∀ x : Edge, (t.edge_allocator ++ [x]).getD it.edge_addr.toNat
      { start_position := 0, length := 0, next_node_addr := 0 } =
      get_edge_by t it.edge_addr := by
    intro x
    rw [getD_append_lt _ _ _ _ hv]
    rfl
  simp only [add_node_in, allocate_edge, allocate_node, set_edge, set_child,
    set_child_slot, set_node, get_edge_by, Int.toNat_natCast]
  rw [hg]
  rw [set_append_last]
  rw [set_append_lt _ _ _ hv]
  rfl

theorem add_node_in_expanded (t : SuffixTree) (it : InnerPosition) :
    (add_node_in t it).1.expanded_string = t.expanded_string := rfl

theorem add_node_in_alphabet (t : SuffixTree) (it : InnerPosition) :
    (add_node_in t it).1.alphabet = t.alphabet := rfl

theorem add_node_in_root (t : SuffixTree) (it : InnerPosition) :
    (add_node_in t it).1.root_addr = t.root_addr := rfl

theorem add_node_in_node (t : SuffixTree) (it : InnerPosition) :
    (add_node_in t it).2 = (t.node_allocator.length : Int) := rfl

theorem EdgesGood_add_node_in (t : SuffixTree) (it : InnerPosition)
    (h : EdgesGood t) (hpos : 0 < it.position)
    (hv : it.edge_addr.toNat < t.edge_allocator.length)
    (hlen : it.position < (get_edge_by t it.edge_addr).length) :
    EdgesGood (add_node_in t it).1 := by
  intro e he
  rw [add_node_in_edges t it hv] at he
  rw [add_node_in_expanded]
  have holdgood := h (get_edge_by t it.edge_addr) (get_edge_mem t _ hv)
  rcases List.mem_append.mp he with h1 | h1
  · rcases List.mem_or_eq_of_mem_set h1 with h2 | h2
    · exact h e h2
    · subst h2
      refine ⟨hpos, ?_⟩
      intro hneg
      simp only [] at hneg
      have := Int.natCast_nonneg t.node_allocator.length
      omega
  · simp only [List.mem_singleton] at h1
    subst h1
    refine ⟨by simp only []; omega, ?_⟩
    intro hneg
    simp only [] at hneg ⊢
    have := holdgood.2 hneg
    omega

theorem NodesGood_add_node_in (t : SuffixTree) (it : InnerPosition)
    (h : NodesGood t) : NodesGood (add_node_in t it).1 := by
  unfold add_node_in
  apply NodesGood_set_edge
  apply NodesGood_set_child
  · exact NodesGood_set_edge _ _ _
      (NodesGood_allocate_node _ (NodesGood_allocate_edge t h))
  · refine Or.inr ⟨Int.natCast_nonneg _, ?_⟩
    simp only [set_edge, allocate_edge, allocate_node, Int.toNat_natCast,
      List.length_set, List.length_append, List.length_cons, List.length_nil]
    omega

theorem ItOK_zero (t : SuffixTree) (n e : Int) :
    ItOK t { node_addr := n, edge_addr := e, position := 0 } := by
  constructor
  · exact le_refl 0
  · intro hp
    exact absurd hp (by simp)

theorem go_skip_itok (t : SuffixTree) (src : Int) :
    ∀ (fuel : Nat) (processed : Int) (it it' : InnerPosition), 0 < it.position →
      go_skip t src fuel processed it = some it' → ItOK t it'
  | 0, _, _, _, _, h => by simp [go_skip] at h
  | fuel + 1, processed, it, it', hpos, h => by
    simp only [go_skip] at h
    split at h
    · split at h
      · cases h
        rename_i hc hz
        replace hz : it.position - (get_edge_by t it.edge_addr).length = 0 := hz
        constructor
        · exact le_of_eq hz.symm
        · intro hp
          replace hp : 0 < it.position - (get_edge_by t it.edge_addr).length := hp
          omega
      · rename_i hc hz
        replace hz : ¬ it.position - (get_edge_by t it.edge_addr).length = 0 := hz
        replace hc : (get_edge_by t it.edge_addr).length ≤ it.position := hc
        refine go_skip_itok t src fuel _ _ it' ?_ h
        show (0:Int) < it.position - (get_edge_by t it.edge_addr).length
        omega
    · cases h
      rename_i hc
      refine ⟨le_of_lt hpos, fun _ => ⟨?_, lt_of_not_le hc⟩⟩
      by_contra hb
      rw [get_edge_oor t _ (le_of_not_lt hb)] at hc
      simp only [not_le] at hc
      omega

theorem go_conn_itok (t : SuffixTree) (it it' : InnerPosition)
    (h0 : 0 ≤ it.position)
    (h : go_using_suffix_connection t it = some it') : ItOK t it' := by
  simp only [go_using_suffix_connection] at h
  split at h
  · cases h
    rename_i hz
    replace hz : it.position = 0 := hz
    constructor
    · exact le_of_eq hz.symm
    · intro hp
      replace hp : 0 < it.position := hp
      omega
  · rename_i hz
    replace hz : ¬ it.position = 0 := hz
    have hpos : (0:Int) < it.position := by omega
    refine go_skip_itok t _ _ _ _ it' ?_ h
    exact hpos

theorem third_stage_itok (t : SuffixTree) (pos : Nat) (it : InnerPosition)
    (hE : EdgesGood t) (hN : NodesGood t) (hit : ItOK t it)
    (hpost : is_position_in_node_without_path t pos it = false) :
    ItOK t (third_stage t pos it) := by
  simp only [third_stage, go_over_one_letter_next]
  by_cases hz : it.position = 0
  · rw [if_pos hz]
    have hch : ¬ child_of t it.node_addr (charAt t.expanded_string (pos : Int)) =
        no_connection := by
      simp only [is_position_in_node_without_path, hz] at hpost
      simpa using hpost
    have hnode : it.node_addr.toNat < t.node_allocator.length := by
      by_contra hb
      apply hch
      unfold child_of
      rw [get_node_oor t _ (le_of_not_lt hb)]
      rfl
    have hmem := get_node_mem t it.node_addr hnode
    have hslot : (alphabet_index_of t.alphabet
        (charAt t.expanded_string (pos : Int))).toNat <
        (get_node_by t it.node_addr).edges_to_childs.length := by
      by_contra hb
      apply hch
      unfold child_of
      exact getD_ge _ _ _ (le_of_not_lt hb)
    have hrm : (get_node_by t it.node_addr).edges_to_childs.getD
        (alphabet_index_of t.alphabet (charAt t.expanded_string (pos : Int))).toNat
        no_connection ∈ (get_node_by t it.node_addr).edges_to_childs :=
      getD_mem _ _ _ hslot
    rcases hN _ hmem _ hrm with hc | hc
    · exact absurd hc hch
    · have hrl : 1 ≤ (get_edge_by t (child_of t it.node_addr
          (charAt t.expanded_string (pos : Int)))).length :=
        (hE _ (get_edge_mem t _ hc.2)).1
      split
      · exact ItOK_zero ..
      · rename_i hne
        replace hne : ¬ (it.position + 1 = (get_edge_by t (child_of t it.node_addr
            (charAt t.expanded_string (pos : Int)))).length) := hne
        constructor
        · show (0:Int) ≤ it.position + 1
          omega
        · intro _
          refine ⟨hc.2, ?_⟩
          show it.position + 1 < (get_edge_by t (child_of t it.node_addr
            (charAt t.expanded_string (pos : Int)))).length
          omega
  · rw [if_neg hz]
    obtain ⟨hp0, hcl⟩ := hit
    have hpos : (0:Int) < it.position := by omega
    obtain ⟨hv, hlen⟩ := hcl hpos
    split
    · exact ItOK_zero ..
    · rename_i hne
      replace hne : ¬ (it.position + 1 = (get_edge_by t it.edge_addr).length) := hne
      constructor
      · show (0:Int) ≤ it.position + 1
        omega
      · intro _
        refine ⟨hv, ?_⟩
        show it.position + 1 < (get_edge_by t it.edge_addr).length
        omega

theorem in_edge_pos (t : SuffixTree) (pos : Nat) (it : InnerPosition)
    (h : is_position_in_edge_without_path t pos it = true) : ¬ it.position = 0 := by
  intro hz
  simp [is_position_in_edge_without_path, hz] at h

theorem ItOK_set_suffix_connection (t : SuffixTree) (r target : Int)
    (it : InnerPosition) (h : ItOK t it) :
    ItOK (set_suffix_connection t r target) it := h

theorem stage2_node_loop_inv :
    ∀ (fuel : Nat) (t : SuffixTree) (lc : Int) (pos : Nat) (it : InnerPosition)
      (t' : SuffixTree) (lc' : Int) (it' : InnerPosition),
      EdgesGood t → NodesGood t → lc ≤ 0 → ItOK t it →
      pos < t.expanded_string.length →
      stage2_node_loop fuel t lc pos it = some (t', lc', it') →
      EdgesGood t' ∧ NodesGood t' ∧ lc' ≤ 0 ∧ ItOK t' it' ∧
        is_position_in_node_without_path t' pos it' = false ∧
        t'.expanded_string = t.expanded_string ∧ t'.alphabet = t.alphabet ∧
        t'.root_addr = t.root_addr
  | 0, t, lc, pos, it, t', lc', it', _, _, _, _, _, h => by
    simp [stage2_node_loop] at h
  | fuel + 1, t, lc, pos, it, t', lc', it', hE, hN, hlc, hit, hpos, h => by
    simp only [stage2_node_loop] at h
    split at h
    · split at h
      · exact absurd h (by simp)
      · rename_i hcond it1 hgo
        have hE1 : EdgesGood (create_new_edge_to_leaf_from_node t lc pos it.node_addr).1 :=
          EdgesGood_create_leaf t lc pos it.node_addr hE hpos
        have hN1 : NodesGood (create_new_edge_to_leaf_from_node t lc pos it.node_addr).1 :=
          NodesGood_create_leaf t lc pos it.node_addr hN
        have hlc1 : (create_new_edge_to_leaf_from_node t lc pos it.node_addr).2 ≤ 0 := by
          rw [create_leaf_ctr]; omega
        have hit1 : ItOK (create_new_edge_to_leaf_from_node t lc pos it.node_addr).1 it1 :=
          go_conn_itok _ it it1 hit.1 hgo
        have hpos1 : pos <
            (create_new_edge_to_leaf_from_node t lc pos it.node_addr).1.expanded_string.length := by
          rw [create_leaf_expanded]; exact hpos
        obtain ⟨a1, a2, a3, a4, a5, a6, a7, a8⟩ :=
          stage2_node_loop_inv fuel _ _ pos it1 t' lc' it' hE1 hN1 hlc1 hit1 hpos1 h
        refine ⟨a1, a2, a3, a4, a5, ?_, ?_, ?_⟩
        · rw [a6, create_leaf_expanded]
        · rw [a7, create_leaf_alphabet]
        · rw [a8, create_leaf_root]
    · rename_i hcond
      simp only [Option.some.injEq, Prod.mk.injEq] at h
      obtain ⟨h1, h2, h3⟩ := h
      subst h1
      subst h2
      subst h3
      exact ⟨hE, hN, hlc, hit, by simpa using hcond, rfl, rfl, rfl⟩

theorem stage2_split_loop_inv :
    ∀ (fuel : Nat) (t : SuffixTree) (lc : Int) (pos : Nat) (last : Int)
      (it : InnerPosition) (t' : SuffixTree) (lc' : Int) (last' : Int)
      (it' : InnerPosition),
      EdgesGood t → NodesGood t → lc ≤ 0 → ItOK t it →
      pos < t.expanded_string.length →
      stage2_split_loop fuel t lc pos last it = some (t', lc', last', it') →
      EdgesGood t' ∧ NodesGood t' ∧ lc' ≤ 0 ∧ ItOK t' it' ∧
        t'.expanded_string = t.expanded_string ∧ t'.alphabet = t.alphabet ∧
        t'.root_addr = t.root_addr
  | 0, t, lc, pos, last, it, t', lc', last', it', _, _, _, _, _, h => by
    simp [stage2_split_loop] at h
  | fuel + 1, t, lc, pos, last, it, t', lc', last', it', hE, hN, hlc, hit, hpos, h => by
    simp only [stage2_split_loop] at h
    split at h
    · rename_i hcond
      split at h
      · exact absurd h (by simp)
      · rename_i it1 hgo
        have hz : ¬ it.position = 0 := in_edge_pos t pos it hcond
        have hp : (0:Int) < it.position := by
          have := hit.1
          omega
        obtain ⟨hv, hlen⟩ := hit.2 hp
        have hEp : EdgesGood (add_node_in t it).1 :=
          EdgesGood_add_node_in t it hE hp hv hlen
        have hNp : NodesGood (add_node_in t it).1 :=
          NodesGood_add_node_in t it hN
        have hE2 : EdgesGood (set_suffix_connection (add_node_in t it).1 last
            (add_node_in t it).2) := hEp
        have hN2 : NodesGood (set_suffix_connection (add_node_in t it).1 last
            (add_node_in t it).2) :=
          NodesGood_set_suffix_connection _ _ _ hNp
        have hpos2 : pos < (set_suffix_connection (add_node_in t it).1 last
            (add_node_in t it).2).expanded_string.length := hpos
        have hE3 := EdgesGood_create_leaf _ lc pos (add_node_in t it).2 hE2 hpos2
        have hN3 := NodesGood_create_leaf _ lc pos (add_node_in t it).2 hN2
        have hlc3 : (create_new_edge_to_leaf_from_node
            (set_suffix_connection (add_node_in t it).1 last (add_node_in t it).2)
            lc pos (add_node_in t it).2).2 ≤ 0 := by
          rw [create_leaf_ctr]; omega
        have hit3 := go_conn_itok _ it it1 hit.1 hgo
        have hpos3 : pos < (create_new_edge_to_leaf_from_node
            (set_suffix_connection (add_node_in t it).1 last (add_node_in t it).2)
            lc pos (add_node_in t it).2).1.expanded_string.length := by
          rw [create_leaf_expanded]; exact hpos2
        obtain ⟨a1, a2, a3, a4, a5, a6, a7⟩ :=
          stage2_split_loop_inv fuel _ _ pos _ it1 t' lc' last' it' hE3 hN3 hlc3 hit3 hpos3 h
        refine ⟨a1, a2, a3, a4, ?_, ?_, ?_⟩
        · rw [a5, create_leaf_expanded]
          rfl
        · rw [a6, create_leaf_alphabet]
          rfl
        · rw [a7, create_leaf_root]
          rfl
    · simp only [Option.some.injEq, Prod.mk.injEq] at h
      obtain ⟨h1, h2, h3, h4⟩ := h
      subst h1
      subst h2
      subst h4
      exact ⟨hE, hN, hlc, hit, rfl, rfl, rfl⟩

theorem second_stage_inv (t : SuffixTree) (lc : Int) (pos : Nat)
    (it : InnerPosition) (t1 : SuffixTree) (lc1 : Int) (it1 : InnerPosition)
    (hE : EdgesGood t) (hN : NodesGood t) (hlc : lc ≤ 0) (hit : ItOK t it)
    (hpos : pos < t.expanded_string.length)
    (h : second_stage t lc pos it = some (t1, lc1, it1)) :
    EdgesGood t1 ∧ NodesGood t1 ∧ lc1 ≤ 0 ∧ ItOK t1 it1 ∧
      is_position_in_node_without_path t1 pos it1 = false ∧
      t1.expanded_string = t.expanded_string ∧ t1.alphabet = t.alphabet ∧
      t1.root_addr = t.root_addr := by
  simp only [second_stage] at h
  split at h
  · exact absurd h (by simp)
  · rename_i r hfirst
    split at hfirst
    · rename_i hcond
      split at hfirst
      · exact absurd hfirst (by simp)
      · rename_i itx hgo
        have hz : ¬ it.position = 0 := in_edge_pos t pos it hcond
        have hp : (0:Int) < it.position := by
          have := hit.1
          omega
        obtain ⟨hv, hlen⟩ := hit.2 hp
        have hEp : EdgesGood (add_node_in t it).1 :=
          EdgesGood_add_node_in t it hE hp hv hlen
        have hNp : NodesGood (add_node_in t it).1 :=
          NodesGood_add_node_in t it hN
        have hposp : pos < (add_node_in t it).1.expanded_string.length := hpos
        have hE2 := EdgesGood_create_leaf _ lc pos (add_node_in t it).2 hEp hposp
        have hN2 := NodesGood_create_leaf _ lc pos (add_node_in t it).2 hNp
        have hlc2 : (create_new_edge_to_leaf_from_node (add_node_in t it).1 lc pos
            (add_node_in t it).2).2 ≤ 0 := by
          rw [create_leaf_ctr]; omega
        have hit2 := go_conn_itok _ it itx hit.1 hgo
        have hpos2 : pos < (create_new_edge_to_leaf_from_node (add_node_in t it).1 lc pos
            (add_node_in t it).2).1.expanded_string.length := by
          rw [create_leaf_expanded]; exact hposp
        obtain ⟨b1, b2, b3, b4, b5, b6, b7⟩ :=
          stage2_split_loop_inv (pos + 2) _ _ pos _ itx r.1 r.2.1 r.2.2.1 r.2.2.2
            hE2 hN2 hlc2 hit2 hpos2 hfirst
        have hN4 : NodesGood (set_suffix_connection r.1 r.2.2.1 r.2.2.2.node_addr) :=
          NodesGood_set_suffix_connection _ _ _ b2
        have hpos4 : pos < (set_suffix_connection r.1 r.2.2.1
            r.2.2.2.node_addr).expanded_string.length := by
          show pos < r.1.expanded_string.length
          rw [b5, create_leaf_expanded]
          exact hposp
        obtain ⟨c1, c2, c3, c4, c5, c6, c7, c8⟩ :=
          stage2_node_loop_inv (pos + 2)
            (set_suffix_connection r.1 r.2.2.1 r.2.2.2.node_addr) r.2.1 pos r.2.2.2
            t1 lc1 it1 b1 hN4 b3 b4 hpos4 h
        refine ⟨c1, c2, c3, c4, c5, ?_, ?_, ?_⟩
        · rw [c6]
          show r.1.expanded_string = t.expanded_string
          rw [b5, create_leaf_expanded]
          rfl
        · rw [c7]
          show r.1.alphabet = t.alphabet
          rw [b6, create_leaf_alphabet]
          rfl
        · rw [c8]
          show r.1.root_addr = t.root_addr
          rw [b7, create_leaf_root]
          rfl
    · simp only [Option.some.injEq] at hfirst
      subst hfirst
      have hN4 := NodesGood_set_suffix_connection t
          ((get_node_by t t.root_addr).suffix_connection) it.node_addr hN
      obtain ⟨c1, c2, c3, c4, c5, c6, c7, c8⟩ :=
        stage2_node_loop_inv (pos + 2)
          (set_suffix_connection t ((get_node_by t t.root_addr).suffix_connection)
            it.node_addr) lc pos it t1 lc1 it1 hE hN4 hlc hit hpos h
      exact ⟨c1, c2, c3, c4, c5, c6, c7, c8⟩

theorem construct_loop_inv :
    ∀ (ps : List Nat) (t : SuffixTree) (lc : Int) (it : InnerPosition)
      (t' : SuffixTree) (lc' : Int) (it' : InnerPosition),
      EdgesGood t → NodesGood t → lc ≤ 0 → ItOK t it →
      (∀ p ∈ ps, p < t.expanded_string.length) →
      construct_loop ps t lc it = some (t', lc', it') →
      EdgesGood t' ∧ NodesGood t' ∧ lc' ≤ 0 ∧
        t'.expanded_string = t.expanded_string ∧ t'.alphabet = t.alphabet ∧
        t'.root_addr = t.root_addr
  | [], t, lc, it, t', lc', it', hE, hN, hlc, _hit, _hps, h => by
    simp only [construct_loop, Option.some.injEq, Prod.mk.injEq] at h
    obtain ⟨h1, h2, h3⟩ := h
    subst h1
    subst h2
    exact ⟨hE, hN, hlc, rfl, rfl, rfl⟩
  | pos :: rest, t, lc, it, t', lc', it', hE, hN, hlc, hit, hps, h => by
    simp only [construct_loop, first_stage] at h
    split at h
    · exact absurd h (by simp)
    · rename_i r hss
      obtain ⟨ta, la, ita⟩ := r
      have hpos : pos < t.expanded_string.length := hps pos (List.mem_cons_self pos rest)
      obtain ⟨b1, b2, b3, b4, b5, b6, b7, b8⟩ :=
        second_stage_inv t lc pos it ta la ita hE hN hlc hit hpos hss
      have hposa : pos < ta.expanded_string.length := by rw [b6]; exact hpos
      have hit3 : ItOK ta (third_stage ta pos ita) :=
        third_stage_itok ta pos ita b1 b2 b4 b5
      have hpsa : ∀ p ∈ rest, p < ta.expanded_string.length := by
        intro p hp
        rw [b6]
        exact hps p (List.mem_cons_of_mem pos hp)
      obtain ⟨c1, c2, c3, c4, c5, c6⟩ :=
        construct_loop_inv rest ta la (third_stage ta pos ita) t' lc' it'
          b1 b2 b3 hit3 hpsa h
      refine ⟨c1, c2, c3, ?_, ?_, ?_⟩
      · rw [c4, b6]
      · rw [c5, b7]
      · rw [c6, b8]

theorem foldl_preserves {α β : Type} (P : α → Prop) (f : α → β → α) :
    ∀ (l : List β) (a : α), P a → (∀ x b, P x → P (f x b)) → P (l.foldl f a)
  | [], _, h0, _ => h0
  | b :: rest, a, h0, hstep =>
    foldl_preserves P f rest (f a b) (hstep a b h0) hstep

theorem create_dummy_good (t : SuffixTree)
    (hE : EdgesGood t) (hN : NodesGood t) (hr : t.root_addr = 0) :
    EdgesGood (create_dummy_node t).1 ∧ NodesGood (create_dummy_node t).1 ∧
      (create_dummy_node t).1.expanded_string = t.expanded_string ∧
      (create_dummy_node t).1.alphabet = t.alphabet ∧
      (create_dummy_node t).1.root_addr = t.root_addr := by
  unfold create_dummy_node
  dsimp only
  apply foldl_preserves (fun acc => EdgesGood acc ∧ NodesGood acc ∧
    acc.expanded_string = t.expanded_string ∧ acc.alphabet = t.alphabet ∧
    acc.root_addr = t.root_addr)
  · exact ⟨hE, NodesGood_set_suffix_connection _ _ _ (NodesGood_allocate_node t hN),
      rfl, rfl, rfl⟩
  · intro x i hx
    obtain ⟨x1, x2, x3, x4, x5⟩ := hx
    have hshape : (set_child_slot (set_edge (allocate_edge x).1 (allocate_edge x).2
        { start_position := -1, length := 1,
          next_node_addr := (allocate_edge x).1.root_addr })
        (allocate_node t).2 i (allocate_edge x).2).edge_allocator =
        x.edge_allocator ++
          [{ start_position := -1, length := 1, next_node_addr := x.root_addr }] := by
      simp only [set_child_slot, set_node, set_edge, allocate_edge, Int.toNat_natCast]
      exact set_append_last ..
    refine ⟨?_, ?_, x3, x4, x5⟩
    · intro e he
      rw [hshape] at he
      rcases List.mem_append.mp he with h1 | h1
      · have hx1 := x1 e h1
        refine ⟨hx1.1, ?_⟩
        intro hneg
        have h2 := hx1.2 hneg
        exact h2
      · simp only [List.mem_singleton] at h1
        subst h1
        refine ⟨by norm_num, ?_⟩
        intro hneg
        simp only [x5, hr] at hneg
        omega
    · refine NodesGood_set_child_slot _ _ _ _ ?_ ?_
      · exact NodesGood_set_edge _ _ _ (NodesGood_allocate_edge x x2)
      · refine Or.inr ⟨Int.natCast_nonneg _, ?_⟩
        simp only [set_edge, allocate_edge, Int.toNat_natCast, List.length_set,
          List.length_append, List.length_cons, List.length_nil]
        omega

theorem init_like_good (t2 : SuffixTree)
    (hE : EdgesGood t2) (hN : NodesGood t2) (hr : t2.root_addr = 0) :
    EdgesGood (set_suffix_connection (create_dummy_node t2).1
        (create_dummy_node t2).1.root_addr (create_dummy_node t2).2) ∧
      NodesGood (set_suffix_connection (create_dummy_node t2).1
        (create_dummy_node t2).1.root_addr (create_dummy_node t2).2) ∧
      (set_suffix_connection (create_dummy_node t2).1
        (create_dummy_node t2).1.root_addr (create_dummy_node t2).2).expanded_string =
        t2.expanded_string ∧
      (set_suffix_connection (create_dummy_node t2).1
        (create_dummy_node t2).1.root_addr (create_dummy_node t2).2).root_addr = 0 := by
  obtain ⟨d1, d2, d3, d4, d5⟩ := create_dummy_good t2 hE hN hr
  refine ⟨d1, NodesGood_set_suffix_connection _ _ _ d2, d3, ?_⟩
  show (create_dummy_node t2).1.root_addr = 0
  rw [d5, hr]

theorem init_tree_good (A s : List Nat) :
    EdgesGood (init_tree A s) ∧ NodesGood (init_tree A s) ∧
      (init_tree A s).expanded_string = s ++ [terminal_symbol] ∧
      (init_tree A s).root_addr = 0 := by
  unfold init_tree
  dsimp only
  refine init_like_good _ ?_ ?_ rfl
  · intro e he
    exact absurd he (List.not_mem_nil e)
  · intro nd hnd x hx
    rcases List.mem_append.mp hnd with h1 | h1
    · exact absurd h1 (List.not_mem_nil nd)
    · simp only [List.mem_singleton] at h1
      subst h1
      simp only [List.mem_replicate] at hx
      exact Or.inl hx.2

theorem build_from_good (A s : List Nat) (lc0 : Int) (t : SuffixTree)
    (hlc : lc0 ≤ 0) (h : build_from A s lc0 = some t) :
    EdgesGood t ∧ NodesGood t ∧ t.expanded_string = s ++ [terminal_symbol] := by
  unfold build_from construct_tree at h
  rcases hcl : construct_loop (List.range (init_tree A s).expanded_string.length)
      (init_tree A s) lc0
      { node_addr := (init_tree A s).root_addr, edge_addr := no_connection,
        position := 0 } with _ | r
  · rw [hcl] at h
    exact absurd h (by simp)
  · rw [hcl] at h
    simp only [Option.map_some', Option.some.injEq] at h
    obtain ⟨i1, i2, i3, i4⟩ := init_tree_good A s
    obtain ⟨e1, e2, e3, e4, e5, e6⟩ :=
      construct_loop_inv (List.range (init_tree A s).expanded_string.length)
        (init_tree A s) lc0
        { node_addr := (init_tree A s).root_addr, edge_addr := no_connection,
          position := 0 } r.1 r.2.1 r.2.2 i1 i2 hlc (ItOK_zero ..)
        (fun p hp => List.mem_range.mp hp) hcl
    rw [← h]
    exact ⟨e1, e2, by rw [e4, i3]⟩

theorem expanded_last (s : List Nat) :
    charAt (s ++ [terminal_symbol]) (((s ++ [terminal_symbol]).length : Int) - 1) =
      terminal_symbol := by
  unfold charAt
  have hl : (s ++ [terminal_symbol]).length = s.length + 1 := by simp
  have ht : (((s ++ [terminal_symbol]).length : Int) - 1).toNat = s.length := by
    rw [hl]
    omega
  rw [ht]
  rw [getD_lt _ _ _ (by simp [hl])]
  simp

theorem leaf_hit_loop_false :
    ∀ (p : List Nat) (t : SuffixTree) (it : InnerPosition),
      EdgesGood t → NodesGood t → QIt t it →
      terminal_symbol ∉ p →
      charAt t.expanded_string ((t.expanded_string.length : Int) - 1) =
        terminal_symbol →
      leaf_hit_loop p t it = false
  | [], _, _, _, _, _, _, _ => rfl
  | ch :: rest, t, it, hE, hN, hq, hterm, hlast => by
    have hch : ¬ terminal_symbol = ch := by
      intro he
      exact hterm (he ▸ List.mem_cons_self ch rest)
    have hrest : terminal_symbol ∉ rest := by
      intro hm
      exact hterm (List.mem_cons_of_mem ch hm)
    simp only [leaf_hit_loop]
    by_cases h0 : it.edge_addr = no_connection
    · have hp0 : it.position = 0 := hq.2.1 h0
      rw [if_pos h0]
      by_cases hr1 : child_of t it.node_addr ch = no_connection
      · rw [if_pos hr1]
      · rw [if_neg hr1]
        have hnode : it.node_addr.toNat < t.node_allocator.length := by
          by_contra hb
          apply hr1
          unfold child_of
          rw [get_node_oor t _ (le_of_not_lt hb)]
          rfl
        have hmem := get_node_mem t it.node_addr hnode
        have hslot : (alphabet_index_of t.alphabet ch).toNat <
            (get_node_by t it.node_addr).edges_to_childs.length := by
          by_contra hb
          apply hr1
          unfold child_of
          exact getD_ge _ _ _ (le_of_not_lt hb)
        have hrm : (get_node_by t it.node_addr).edges_to_childs.getD
            (alphabet_index_of t.alphabet ch).toNat no_connection ∈
            (get_node_by t it.node_addr).edges_to_childs := getD_mem _ _ _ hslot
        rcases hN _ hmem _ hrm with hc | hc
        · exact absurd hc hr1
        · have hegood : 1 ≤ (get_edge_by t (child_of t it.node_addr ch)).length ∧
              ((get_edge_by t (child_of t it.node_addr ch)).next_node_addr < 0 →
                (get_edge_by t (child_of t it.node_addr ch)).start_position +
                  (get_edge_by t (child_of t it.node_addr ch)).length =
                  (t.expanded_string.length : Int)) :=
            hE (get_edge_by t (child_of t it.node_addr ch))
              (get_edge_mem t (child_of t it.node_addr ch) hc.2)
          split
          · rename_i hcc
            split
            · rename_i hdd
              split
              · rename_i hleaf
                exfalso
                replace hleaf : (get_edge_by t (child_of t it.node_addr ch)).next_node_addr < 0 := by
                  simpa [is_leaf] using hleaf
                have hclose := hegood.2 hleaf
                replace hdd : (get_edge_by t (child_of t it.node_addr ch)).length =
                    it.position + 1 := hdd
                replace hcc : charAt t.expanded_string
                    ((get_edge_by t (child_of t it.node_addr ch)).start_position +
                      it.position) = ch := hcc
                have hidx : (get_edge_by t (child_of t it.node_addr ch)).start_position +
                    it.position = (t.expanded_string.length : Int) - 1 := by
                  omega
                rw [hidx, hlast] at hcc
                exact hch hcc
              · refine leaf_hit_loop_false rest t _ hE hN ?_ hrest hlast
                exact ⟨le_refl 0, fun _ => rfl, fun hne => absurd rfl hne⟩
            · rename_i hdd
              refine leaf_hit_loop_false rest t _ hE hN ?_ hrest hlast
              replace hdd : ¬ (get_edge_by t (child_of t it.node_addr ch)).length =
                  it.position + 1 := hdd
              constructor
              · show (0:Int) ≤ it.position + 1
                omega
              constructor
              · intro habs
                exact absurd habs hr1
              · intro _
                refine ⟨hc.2, ?_⟩
                show it.position + 1 < (get_edge_by t (child_of t it.node_addr ch)).length
                omega
          · rfl
    · rw [if_neg h0]
      obtain ⟨hv, hplen⟩ := hq.2.2 h0
      have hp0 : (0:Int) ≤ it.position := hq.1
      rw [if_neg h0]
      have hegood := hE _ (get_edge_mem t _ hv)
      split
      · rename_i hcc
        split
        · rename_i hdd
          split
          · rename_i hleaf
            exfalso
            replace hleaf : (get_edge_by t it.edge_addr).next_node_addr < 0 := by
              simpa [is_leaf] using hleaf
            have hclose := hegood.2 hleaf
            replace hdd : (get_edge_by t it.edge_addr).length = it.position + 1 := hdd
            replace hcc : charAt t.expanded_string
                ((get_edge_by t it.edge_addr).start_position + it.position) = ch := hcc
            have hidx : (get_edge_by t it.edge_addr).start_position + it.position =
                (t.expanded_string.length : Int) - 1 := by
              omega
            rw [hidx, hlast] at hcc
            exact hch hcc
          · refine leaf_hit_loop_false rest t _ hE hN ?_ hrest hlast
            exact ⟨le_refl 0, fun _ => rfl, fun hne => absurd rfl hne⟩
        · rename_i hdd
          refine leaf_hit_loop_false rest t _ hE hN ?_ hrest hlast
          replace hdd : ¬ (get_edge_by t it.edge_addr).length = it.position + 1 := hdd
          constructor
          · show (0:Int) ≤ it.position + 1
            omega
          constructor
          · intro habs
            exact absurd habs h0
          · intro _
            refine ⟨hv, ?_⟩
            show it.position + 1 < (get_edge_by t it.edge_addr).length
            omega
      · rfl

/-- Claim C4 (amended): for every tree built from a source and every query
pattern that does not contain the terminal byte, the Pattern Locator never
reaches a leaf: whenever the iterator descends past the end of an edge, the
node reached is an inner node, so the in-loop assertion holds.  (For patterns
containing the terminal byte the assertion can fire, as the counterexample
shows.) -/
theorem locator_never_reaches_leaf_without_terminal (A s : List Nat)
    (t : SuffixTree) (h : build_tree A s = some t) (p : List Nat)
    (hp : terminal_symbol ∉ p) : index_of_leaf_hit t p = false := by
  obtain ⟨hE, hN, hexp⟩ := build_from_good A s 0 t (le_refl 0) h
  unfold index_of_leaf_hit
  split
  · rfl
  · refine leaf_hit_loop_false p t _ hE hN ?_ hp ?_
    · exact ⟨le_refl 0, fun _ => rfl, fun hne => absurd rfl hne⟩
    · rw [hexp]
      exact expanded_last s

theorem locator_never_reaches_leaf_without_terminal_witness :
    index_of_leaf_hit tree_1 [1] = false :=
  locator_never_reaches_leaf_without_terminal (suffixTreeAlphabet [1]) [1] tree_1
    (by decide) [1] (by decide)

theorem rel_ref_refl (r : Int) : RelRef r r := Or.inl rfl

theorem rel_ref_toNat {r r' : Int} (h : RelRef r r') : r.toNat = r'.toNat := by
  rcases h with h | ⟨h1, h2⟩
  · rw [h]
  · omega

theorem rel_node_refl (n : Node) : RelNode n n := ⟨rel_ref_refl _, rfl⟩

theorem rel_edge_refl (e : Edge) : RelEdge e e := ⟨rfl, rfl, rel_ref_refl _⟩

theorem rel_tree_refl (t : SuffixTree) : RelTree t t :=
  ⟨rfl, rfl, rfl, List.forall₂_same.mpr (fun x _ => rel_node_refl x),
    List.forall₂_same.mpr (fun x _ => rel_edge_refl x)⟩

theorem forall2_getD {α β : Type} {R : α → β → Prop} {l : List α} {l' : List β}
    (h : List.Forall₂ R l l') : ∀ (n : Nat) (d : α) (d' : β), R d d' →
      R (l.getD n d) (l'.getD n d') := by
  induction h with
  | nil =>
    intro n d d' hd
    simpa using hd
  | cons ha hl ih =>
    intro n d d' hd
    cases n with
    | zero => simpa using ha
    | succ m => simpa using ih m d d' hd

theorem forall2_set {α β : Type} {R : α → β → Prop} {l : List α} {l' : List β}
    (h : List.Forall₂ R l l') : ∀ (n : Nat) (a : α) (b : β), R a b →
      List.Forall₂ R (l.set n a) (l'.set n b) := by
  induction h with
  | nil =>
    intro n a b _
    exact List.Forall₂.nil
  | cons ha hl ih =>
    rename_i x y xs ys
    intro n a b hab
    cases n with
    | zero => exact List.Forall₂.cons hab hl
    | succ m => exact List.Forall₂.cons ha (ih m a b hab)

theorem forall2_append {α β : Type} {R : α → β → Prop} {l : List α} {l' : List β}
    (h : List.Forall₂ R l l') {m : List α} {m' : List β}
    (hm : List.Forall₂ R m m') : List.Forall₂ R (l ++ m) (l' ++ m') := by
  induction h with
  | nil => simpa using hm
  | cons ha hl ih => exact List.Forall₂.cons ha ih

theorem rel_get_node {t t' : SuffixTree} (ht : RelTree t t') {r r' : Int}
    (hr : RelRef r r') : RelNode (get_node_by t r) (get_node_by t' r') := by
  unfold get_node_by
  rw [rel_ref_toNat hr]
  exact forall2_getD ht.2.2.2.1 _ _ _ (rel_node_refl _)

theorem rel_get_edge {t t' : SuffixTree} (ht : RelTree t t') {r r' : Int}
    (hr : RelRef r r') : RelEdge (get_edge_by t r) (get_edge_by t' r') := by
  unfold get_edge_by
  rw [rel_ref_toNat hr]
  exact forall2_getD ht.2.2.2.2 _ _ _ (rel_edge_refl _)

theorem rel_child_of {t t' : SuffixTree} (ht : RelTree t t') {n n' : Int}
    (hn : RelRef n n') (ch : Nat) : child_of t n ch = child_of t' n' ch := by
  unfold child_of
  rw [ht.1]
  rw [(rel_get_node ht hn).2]

theorem rel_set_node {t t' : SuffixTree} (ht : RelTree t t') {r r' : Int}
    (hr : RelRef r r') {nd nd' : Node} (hn : RelNode nd nd') :
    RelTree (set_node t r nd) (set_node t' r' nd') := by
  refine ⟨ht.1, ht.2.1, ht.2.2.1, ?_, ht.2.2.2.2⟩
  show List.Forall₂ RelNode (t.node_allocator.set r.toNat nd)
    (t'.node_allocator.set r'.toNat nd')
  rw [rel_ref_toNat hr]
  exact forall2_set ht.2.2.2.1 _ _ _ hn

theorem rel_set_edge {t t' : SuffixTree} (ht : RelTree t t') {r r' : Int}
    (hr : RelRef r r') {e e' : Edge} (he : RelEdge e e') :
    RelTree (set_edge t r e) (set_edge t' r' e') := by
  refine ⟨ht.1, ht.2.1, ht.2.2.1, ht.2.2.2.1, ?_⟩
  show List.Forall₂ RelEdge (t.edge_allocator.set r.toNat e)
    (t'.edge_allocator.set r'.toNat e')
  rw [rel_ref_toNat hr]
  exact forall2_set ht.2.2.2.2 _ _ _ he

theorem rel_set_suffix {t t' : SuffixTree} (ht : RelTree t t') {r r' : Int}
    (hr : RelRef r r') {x x' : Int} (hx : RelRef x x') :
    RelTree (set_suffix_connection t r x) (set_suffix_connection t' r' x') := by
  unfold set_suffix_connection
  exact rel_set_node ht hr ⟨hx, (rel_get_node ht hr).2⟩

theorem rel_set_child_slot {t t' : SuffixTree} (ht : RelTree t t') {r r' : Int}
    (hr : RelRef r r') (slot : Nat) (e : Int) :
    RelTree (set_child_slot t r slot e) (set_child_slot t' r' slot e) := by
  unfold set_child_slot
  refine rel_set_node ht hr ⟨(rel_get_node ht hr).1, ?_⟩
  show (get_node_by t r).edges_to_childs.set slot e =
    (get_node_by t' r').edges_to_childs.set slot e
  rw [(rel_get_node ht hr).2]

theorem rel_set_child {t t' : SuffixTree} (ht : RelTree t t') {n n' : Int}
    (hn : RelRef n n') {ch ch' : Nat} (hch : ch = ch') {e e' : Int} (he : e = e') :
    RelTree (set_child t n ch e) (set_child t' n' ch' e') := by
  subst hch
  subst he
  unfold set_child
  have hs : (alphabet_index_of t.alphabet ch).toNat =
      (alphabet_index_of t'.alphabet ch).toNat := by rw [ht.1]
  rw [hs]
  exact rel_set_child_slot ht hn _ e

theorem rel_allocate_node {t t' : SuffixTree} (ht : RelTree t t') :
    RelTree (allocate_node t).1 (allocate_node t').1 ∧
      (allocate_node t).2 = (allocate_node t').2 := by
  constructor
  · refine ⟨ht.1, ht.2.1, ht.2.2.1, ?_, ht.2.2.2.2⟩
    show List.Forall₂ RelNode
      (t.node_allocator ++
        [{ suffix_connection := 0,
           edges_to_childs := List.replicate t.alphabet.length no_connection }])
      (t'.node_allocator ++
        [{ suffix_connection := 0,
           edges_to_childs := List.replicate t'.alphabet.length no_connection }])
    refine forall2_append ht.2.2.2.1 ?_
    rw [ht.1]
    exact List.Forall₂.cons (rel_node_refl _) List.Forall₂.nil
  · show ((t.node_allocator.length : Int)) = ((t'.node_allocator.length : Int))
    rw [List.Forall₂.length_eq ht.2.2.2.1]

theorem rel_allocate_edge {t t' : SuffixTree} (ht : RelTree t t') :
    RelTree (allocate_edge t).1 (allocate_edge t').1 ∧
      (allocate_edge t).2 = (allocate_edge t').2 := by
  constructor
  · refine ⟨ht.1, ht.2.1, ht.2.2.1, ht.2.2.2.1, ?_⟩
    show List.Forall₂ RelEdge
      (t.edge_allocator ++ [{ start_position := 0, length := 0, next_node_addr := 0 }])
      (t'.edge_allocator ++ [{ start_position := 0, length := 0, next_node_addr := 0 }])
    exact forall2_append ht.2.2.2.2
      (List.Forall₂.cons (rel_edge_refl _) List.Forall₂.nil)
  · show ((t.edge_allocator.length : Int)) = ((t'.edge_allocator.length : Int))
    rw [List.Forall₂.length_eq ht.2.2.2.2]

theorem optrel_none {α β : Type} (R : α → β → Prop) : OptRel R none none := trivial

theorem optrel_some {α β : Type} {R : α → β → Prop} {a : α} {b : β} (h : R a b) :
    OptRel R (some a) (some b) := h

theorem optrel_cases {α β : Type} {R : α → β → Prop} {x : Option α} {y : Option β}
    (h : OptRel R x y) :
    (x = none ∧ y = none) ∨ ∃ a b, x = some a ∧ y = some b ∧ R a b := by
  match x, y, h with
  | none, none, _ => exact Or.inl ⟨rfl, rfl⟩
  | some a, some b, h => exact Or.inr ⟨a, b, rfl, rfl, h⟩

theorem rel_charAt {t t' : SuffixTree} (ht : RelTree t t') (i : Int) :
    charAt t.expanded_string i = charAt t'.expanded_string i := by
  rw [ht.2.1]

theorem rel_strlen {t t' : SuffixTree} (ht : RelTree t t') :
    t.expanded_string.length = t'.expanded_string.length := by
  rw [ht.2.1]

theorem rel_in_edge {t t' : SuffixTree} (ht : RelTree t t') {it it' : InnerPosition}
    (hit : RelIt it it') (pos : Nat) :
    is_position_in_edge_without_path t pos it =
      is_position_in_edge_without_path t' pos it' := by
  obtain ⟨hn, he, hp⟩ := hit
  obtain ⟨hs, hl, _⟩ := rel_get_edge ht (Or.inl he : RelRef it.edge_addr it'.edge_addr)
  simp only [is_position_in_edge_without_path]
  rw [← hp, ← hs, ← rel_charAt ht (pos : Int),
    ← rel_charAt ht ((get_edge_by t it.edge_addr).start_position + it.position)]

theorem rel_in_node {t t' : SuffixTree} (ht : RelTree t t') {it it' : InnerPosition}
    (hit : RelIt it it') (pos : Nat) :
    is_position_in_node_without_path t pos it =
      is_position_in_node_without_path t' pos it' := by
  obtain ⟨hn, he, hp⟩ := hit
  unfold is_position_in_node_without_path
  rw [← hp, ← rel_charAt ht (pos : Int), ← rel_child_of ht hn]

theorem rel_add_node_in {t t' : SuffixTree} (ht : RelTree t t')
    {it it' : InnerPosition} (hit : RelIt it it') :
    RelTree (add_node_in t it).1 (add_node_in t' it').1 ∧
      (add_node_in t it).2 = (add_node_in t' it').2 := by
  obtain ⟨hn, he, hp⟩ := hit
  obtain ⟨htp, hpe⟩ := rel_allocate_edge ht
  obtain ⟨htq, hqe⟩ := rel_allocate_node htp
  have hee := rel_get_edge htq (Or.inl he : RelRef it.edge_addr it'.edge_addr)
  obtain ⟨hs, hl, hnext⟩ := hee
  have hq2 : (allocate_node (allocate_edge t).1).2 =
      (allocate_node (allocate_edge t').1).2 := hqe
  constructor
  · unfold add_node_in
    dsimp only
    apply rel_set_edge
    · apply rel_set_child
      · apply rel_set_edge htq (Or.inl hpe)
        refine ⟨?_, ?_, hnext⟩
        · rw [hs, hp]
        · rw [hl, hp]
      · exact Or.inl hq2
      · rw [hs, hp, rel_charAt htq]
      · exact hpe
    · exact Or.inl he
    · exact ⟨hs, by rw [hp], Or.inl hq2⟩
  · exact hq2

theorem rel_create_leaf {t t' : SuffixTree} (ht : RelTree t t') {lc lc' : Int}
    (hlc : lc ≤ 0) (hlc' : lc' ≤ 0) (pos : Nat) {n n' : Int} (hn : RelRef n n') :
    RelTree (create_new_edge_to_leaf_from_node t lc pos n).1
      (create_new_edge_to_leaf_from_node t' lc' pos n').1 := by
  obtain ⟨htp, hpe⟩ := rel_allocate_edge ht
  unfold create_new_edge_to_leaf_from_node
  dsimp only
  apply rel_set_child
  · apply rel_set_edge htp (Or.inl hpe)
    refine ⟨rfl, ?_, Or.inr ⟨show lc - 1 < 0 by omega, show lc' - 1 < 0 by omega⟩⟩
    show (t.expanded_string.length : Int) - pos = (t'.expanded_string.length : Int) - pos
    rw [rel_strlen ht]
  · exact hn
  · rw [rel_charAt ht]
  · exact hpe

theorem rel_go_skip {t t' : SuffixTree} (ht : RelTree t t') (src : Int) :
    ∀ (fuel : Nat) (processed : Int) {it it' : InnerPosition}, RelIt it it' →
      OptRel RelIt (go_skip t src fuel processed it)
        (go_skip t' src fuel processed it')
  | 0, _, _, _, _ => trivial
  | fuel + 1, processed, it, it', hit => by
    obtain ⟨hn, he, hp⟩ := hit
    obtain ⟨hs, hl, hnext⟩ :=
      rel_get_edge ht (Or.inl he : RelRef it.edge_addr it'.edge_addr)
    simp only [go_skip]
    rw [← hp, ← hl]
    by_cases hc : (get_edge_by t it.edge_addr).length ≤ it.position
    · rw [if_pos hc, if_pos hc]
      by_cases hz : it.position - (get_edge_by t it.edge_addr).length = 0
      · rw [if_pos hz, if_pos hz]
        exact optrel_some ⟨hnext, rfl, rfl⟩
      · rw [if_neg hz, if_neg hz]
        rw [← rel_charAt ht
          (src + (processed + (get_edge_by t it.edge_addr).length))]
        exact rel_go_skip ht src fuel _
          ⟨hnext, (rel_child_of ht hnext _).symm ▸ rfl, rfl⟩
    · rw [if_neg hc, if_neg hc]
      exact optrel_some ⟨hn, he, hp⟩

theorem rel_go_conn {t t' : SuffixTree} (ht : RelTree t t')
    {it it' : InnerPosition} (hit : RelIt it it') :
    OptRel RelIt (go_using_suffix_connection t it)
      (go_using_suffix_connection t' it') := by
  obtain ⟨hn, he, hp⟩ := hit
  obtain ⟨hs, hl, _⟩ :=
    rel_get_edge ht (Or.inl he : RelRef it.edge_addr it'.edge_addr)
  have hlink := (rel_get_node ht hn).1
  simp only [go_using_suffix_connection]
  rw [← hp, ← hs]
  by_cases hz : it.position = 0
  · rw [if_pos hz, if_pos hz]
    exact optrel_some ⟨hlink, rfl, rfl⟩
  · rw [if_neg hz, if_neg hz]
    rw [← rel_charAt ht (get_edge_by t it.edge_addr).start_position]
    exact rel_go_skip ht _ _ _
      ⟨hlink, (rel_child_of ht hlink _).symm ▸ rfl, rfl⟩

theorem rel_go_over {t t' : SuffixTree} (ht : RelTree t t') (ch : Nat)
    {it it' : InnerPosition} (hit : RelIt it it') :
    RelIt (go_over_one_letter_next t ch it) (go_over_one_letter_next t' ch it') := by
  obtain ⟨hn, he, hp⟩ := hit
  simp only [go_over_one_letter_next]
  rw [← hp]
  by_cases hz : it.position = 0
  · rw [if_pos hz, if_pos hz]
    rw [← rel_child_of ht hn ch]
    obtain ⟨hs, hl, hnext⟩ := rel_get_edge ht
      (rel_ref_refl (child_of t it.node_addr ch))
    rw [← hl]
    by_cases hd : it.position + 1 =
        (get_edge_by t (child_of t it.node_addr ch)).length
    · rw [if_pos hd, if_pos hd]
      exact ⟨hnext, rfl, rfl⟩
    · rw [if_neg hd, if_neg hd]
      exact ⟨hn, rfl, rfl⟩
  · rw [if_neg hz, if_neg hz]
    obtain ⟨hs, hl, hnext⟩ :=
      rel_get_edge ht (Or.inl he : RelRef it.edge_addr it'.edge_addr)
    rw [← hl]
    rw [← hp]
    by_cases hd : it.position + 1 = (get_edge_by t it.edge_addr).length
    · rw [if_pos hd, if_pos hd]
      exact ⟨hnext, rfl, rfl⟩
    · rw [if_neg hd, if_neg hd]
      exact ⟨hn, he, rfl⟩

theorem rel_third_stage {t t' : SuffixTree} (ht : RelTree t t') (pos : Nat)
    {it it' : InnerPosition} (hit : RelIt it it') :
    RelIt (third_stage t pos it) (third_stage t' pos it') := by
  unfold third_stage
  rw [← rel_charAt ht (pos : Int)]
  exact rel_go_over ht _ hit

theorem rel_stage2_node_loop :
    ∀ (fuel : Nat) (t t' : SuffixTree) (lc lc' : Int) (pos : Nat)
      (it it' : InnerPosition), RelTree t t' → lc ≤ 0 → lc' ≤ 0 → RelIt it it' →
      OptRel (fun a b => RelTree a.1 b.1 ∧ a.2.1 ≤ 0 ∧ b.2.1 ≤ 0 ∧
          RelIt a.2.2 b.2.2)
        (stage2_node_loop fuel t lc pos it) (stage2_node_loop fuel t' lc' pos it')
  | 0, _, _, _, _, _, _, _, _, _, _, _ => trivial
  | fuel + 1, t, t', lc, lc', pos, it, it', ht, hlc, hlc', hit => by
    simp only [stage2_node_loop]
    have hceq := rel_in_node ht hit pos
    by_cases hcond : is_position_in_node_without_path t pos it = true
    · rw [if_pos hcond, if_pos (by rw [← hceq]; exact hcond)]
      have htc := rel_create_leaf ht hlc hlc' pos hit.1
      rcases optrel_cases (rel_go_conn htc hit) with ⟨hg1, hg2⟩ | ⟨a, b, hg1, hg2, hab⟩
      · rw [hg1, hg2]
        exact trivial
      · rw [hg1, hg2]
        exact rel_stage2_node_loop fuel _ _ _ _ pos a b htc
          (by rw [create_leaf_ctr]; omega) (by rw [create_leaf_ctr]; omega) hab
    · rw [if_neg hcond, if_neg (by rw [← hceq]; exact hcond)]
      exact optrel_some ⟨ht, hlc, hlc', hit⟩

theorem rel_stage2_split_loop :
    ∀ (fuel : Nat) (t t' : SuffixTree) (lc lc' : Int) (pos : Nat)
      (last last' : Int) (it it' : InnerPosition),
      RelTree t t' → lc ≤ 0 → lc' ≤ 0 → RelRef last last' → RelIt it it' →
      OptRel (fun a b => RelTree a.1 b.1 ∧ a.2.1 ≤ 0 ∧ b.2.1 ≤ 0 ∧
          RelRef a.2.2.1 b.2.2.1 ∧ RelIt a.2.2.2 b.2.2.2)
        (stage2_split_loop fuel t lc pos last it)
        (stage2_split_loop fuel t' lc' pos last' it')
  | 0, _, _, _, _, _, _, _, _, _, _, _, _, _, _ => trivial
  | fuel + 1, t, t', lc, lc', pos, last, last', it, it', ht, hlc, hlc', hlast, hit => by
    simp only [stage2_split_loop]
    have hceq := rel_in_edge ht hit pos
    by_cases hcond : is_position_in_edge_without_path t pos it = true
    · rw [if_pos hcond, if_pos (by rw [← hceq]; exact hcond)]
      obtain ⟨hadd, haddn⟩ := rel_add_node_in ht hit
      have ht2 := rel_set_suffix hadd hlast (Or.inl haddn)
      have htc := rel_create_leaf ht2 hlc hlc' pos (Or.inl haddn)
      rcases optrel_cases (rel_go_conn htc hit) with ⟨hg1, hg2⟩ | ⟨a, b, hg1, hg2, hab⟩
      · rw [hg1, hg2]
        exact trivial
      · rw [hg1, hg2]
        exact rel_stage2_split_loop fuel _ _ _ _ pos _ _ a b htc
          (by rw [create_leaf_ctr]; omega) (by rw [create_leaf_ctr]; omega)
          (Or.inl haddn) hab
    · rw [if_neg hcond, if_neg (by rw [← hceq]; exact hcond)]
      exact optrel_some ⟨ht, hlc, hlc', hlast, hit⟩

theorem rel_second_stage {t t' : SuffixTree} (ht : RelTree t t') {lc lc' : Int}
    (hlc : lc ≤ 0) (hlc' : lc' ≤ 0) (pos : Nat) {it it' : InnerPosition}
    (hit : RelIt it it') :
    OptRel (fun a b => RelTree a.1 b.1 ∧ a.2.1 ≤ 0 ∧ b.2.1 ≤ 0 ∧
        RelIt a.2.2 b.2.2)
      (second_stage t lc pos it) (second_stage t' lc' pos it') := by
  simp only [second_stage]
  have hdl : RelRef (get_node_by t t.root_addr).suffix_connection
      (get_node_by t' t'.root_addr).suffix_connection :=
    (rel_get_node ht (Or.inl ht.2.2.1)).1
  have hceq := rel_in_edge ht hit pos
  by_cases hcond : is_position_in_edge_without_path t pos it = true
  · rw [if_pos hcond, if_pos (by rw [← hceq]; exact hcond)]
    obtain ⟨hadd, haddn⟩ := rel_add_node_in ht hit
    have htc := rel_create_leaf hadd hlc hlc' pos (Or.inl haddn)
    rcases optrel_cases (rel_go_conn htc hit) with ⟨hg1, hg2⟩ | ⟨a, b, hg1, hg2, hab⟩
    · simp only [hg1, hg2]
      exact trivial
    · simp only [hg1, hg2]
      have hsl := rel_stage2_split_loop (pos + 2)
        (create_new_edge_to_leaf_from_node (add_node_in t it).1 lc pos
          (add_node_in t it).2).1
        (create_new_edge_to_leaf_from_node (add_node_in t' it').1 lc' pos
          (add_node_in t' it').2).1
        (create_new_edge_to_leaf_from_node (add_node_in t it).1 lc pos
          (add_node_in t it).2).2
        (create_new_edge_to_leaf_from_node (add_node_in t' it').1 lc' pos
          (add_node_in t' it').2).2
        pos (add_node_in t it).2 (add_node_in t' it').2 a b htc
        (by rw [create_leaf_ctr]; omega) (by rw [create_leaf_ctr]; omega)
        (Or.inl haddn) hab
      rcases optrel_cases hsl with ⟨hs1, hs2⟩ | ⟨r, r', hs1, hs2, hrr⟩
      · simp only [hs1, hs2]
        exact trivial
      · simp only [hs1, hs2]
        obtain ⟨m1, m2, m3, m4, m5⟩ := hrr
        exact rel_stage2_node_loop (pos + 2) _ _ _ _ pos _ _
          (rel_set_suffix m1 m4 m5.1) m2 m3 m5
  · rw [if_neg hcond, if_neg (by rw [← hceq]; exact hcond)]
    exact rel_stage2_node_loop (pos + 2) _ _ _ _ pos _ _
      (rel_set_suffix ht hdl hit.1) hlc hlc' hit

theorem rel_construct_loop :
    ∀ (ps : List Nat) (t t' : SuffixTree) (lc lc' : Int)
      (it it' : InnerPosition), RelTree t t' → lc ≤ 0 → lc' ≤ 0 → RelIt it it' →
      OptRel (fun a b => RelTree a.1 b.1 ∧ a.2.1 ≤ 0 ∧ b.2.1 ≤ 0 ∧
          RelIt a.2.2 b.2.2)
        (construct_loop ps t lc it) (construct_loop ps t' lc' it')
  | [], t, t', lc, lc', it, it', ht, hlc, hlc', hit =>
    optrel_some ⟨ht, hlc, hlc', hit⟩
  | pos :: rest, t, t', lc, lc', it, it', ht, hlc, hlc', hit => by
    simp only [construct_loop, first_stage]
    rcases optrel_cases (rel_second_stage ht hlc hlc' pos hit) with
      ⟨hg1, hg2⟩ | ⟨a, b, hg1, hg2, hab⟩
    · simp only [hg1, hg2]
      exact trivial
    · simp only [hg1, hg2]
      obtain ⟨m1, m2, m3, m4⟩ := hab
      exact rel_construct_loop rest _ _ _ _ _ _ m1 m2 m3
        (rel_third_stage m1 pos m4)

theorem rel_index_of_loop {t t' : SuffixTree} (ht : RelTree t t') :
    ∀ (p : List Nat) {last last' : Int} (hlast : last = last')
      {it it' : InnerPosition} (hit : RelIt it it'),
      OptRel (fun a b => a.1 = b.1 ∧ RelIt a.2 b.2)
        (index_of_loop p t last it) (index_of_loop p t' last' it')
  | [], last, last', hlast, it, it', hit => optrel_some ⟨hlast, hit⟩
  | ch :: rest, last, last', hlast, it, it', hit => by
    obtain ⟨hn, he, hp⟩ := hit
    simp only [index_of_loop]
    rw [← he]
    by_cases h0 : it.edge_addr = no_connection
    · simp only [if_pos h0]
      rw [← rel_child_of ht hn ch]
      by_cases hr : child_of t it.node_addr ch = no_connection
      · simp only [if_pos hr]
        exact trivial
      · simp only [if_neg hr]
        obtain ⟨hs, hl, hnext⟩ :=
          rel_get_edge ht (rel_ref_refl (child_of t it.node_addr ch))
        rw [← hp, ← hl, ← hs, ← rel_charAt ht
          ((get_edge_by t (child_of t it.node_addr ch)).start_position + it.position)]
        by_cases hcc : charAt t.expanded_string
            ((get_edge_by t (child_of t it.node_addr ch)).start_position +
              it.position) = ch
        · simp only [if_pos hcc]
          by_cases hdd : (get_edge_by t (child_of t it.node_addr ch)).length =
              it.position + 1
          · simp only [if_pos hdd]
            exact rel_index_of_loop ht rest rfl ⟨hnext, rfl, rfl⟩
          · simp only [if_neg hdd]
            exact rel_index_of_loop ht rest hlast ⟨hn, rfl, rfl⟩
        · simp only [if_neg hcc]
          exact trivial
    · simp only [if_neg h0]
      rw [← he]
      simp only [if_neg h0]
      obtain ⟨hs, hl, hnext⟩ := rel_get_edge ht (rel_ref_refl it.edge_addr)
      rw [← hp, ← hl, ← hs, ← rel_charAt ht
        ((get_edge_by t it.edge_addr).start_position + it.position)]
      by_cases hcc : charAt t.expanded_string
          ((get_edge_by t it.edge_addr).start_position + it.position) = ch
      · simp only [if_pos hcc]
        by_cases hdd : (get_edge_by t it.edge_addr).length = it.position + 1
        · simp only [if_pos hdd]
          exact rel_index_of_loop ht rest rfl ⟨hnext, rfl, rfl⟩
        · simp only [if_neg hdd]
          exact rel_index_of_loop ht rest hlast ⟨hn, rfl, rfl⟩
      · simp only [if_neg hcc]
        exact trivial

theorem rel_index_of {t t' : SuffixTree} (ht : RelTree t t') (p : List Nat) :
    index_of t p = index_of t' p := by
  simp only [index_of]
  by_cases hlen : p.length = 0
  · rw [if_pos hlen, if_pos hlen]
  · rw [if_neg hlen, if_neg hlen]
    have hdl : RelRef (get_node_by t t.root_addr).suffix_connection
        (get_node_by t' t'.root_addr).suffix_connection :=
      (rel_get_node ht (Or.inl ht.2.2.1)).1
    have hlast : (get_node_by t
        ((get_node_by t t.root_addr).suffix_connection)).edges_to_childs.getD 0
          no_connection =
        (get_node_by t'
          ((get_node_by t' t'.root_addr).suffix_connection)).edges_to_childs.getD 0
          no_connection := by
      rw [(rel_get_node ht hdl).2]
    have hq := rel_index_of_loop ht p hlast
      (⟨Or.inl ht.2.2.1, rfl, rfl⟩ :
        RelIt { node_addr := t.root_addr, edge_addr := no_connection, position := 0 }
          { node_addr := t'.root_addr, edge_addr := no_connection, position := 0 })
    rcases optrel_cases hq with ⟨hg1, hg2⟩ | ⟨a, b, hg1, hg2, hab⟩
    · rw [hg1, hg2]
    · simp only [hg1, hg2]
      obtain ⟨hv, hin, hie, hip⟩ := hab
      rw [← hie, ← hip, ← hv]
      by_cases hsel : a.2.edge_addr = no_connection
      · simp only [if_pos hsel]
        obtain ⟨hs, hl, _⟩ := rel_get_edge ht (rel_ref_refl a.1)
        rw [← hs, ← hl]
      · simp only [if_neg hsel]
        obtain ⟨hs, _, _⟩ := rel_get_edge ht (rel_ref_refl a.2.edge_addr)
        rw [← hs]

theorem rel_build_from (A s : List Nat) (c0 c1 : Int) (h0 : c0 ≤ 0)
    (h1 : c1 ≤ 0) : OptRel RelTree (build_from A s c0) (build_from A s c1) := by
  unfold build_from construct_tree
  have hcl := rel_construct_loop
    (List.range (init_tree A s).expanded_string.length)
    (init_tree A s) (init_tree A s) c0 c1
    { node_addr := (init_tree A s).root_addr, edge_addr := no_connection,
      position := 0 }
    { node_addr := (init_tree A s).root_addr, edge_addr := no_connection,
      position := 0 }
    (rel_tree_refl _) h0 h1 ⟨rel_ref_refl _, rfl, rfl⟩
  rcases optrel_cases hcl with ⟨hg1, hg2⟩ | ⟨a, b, hg1, hg2, hab⟩
  · rw [hg1, hg2]
    exact trivial
  · rw [hg1, hg2]
    exact hab.1

/-- Claim C3: building two trees from the same valid source with any two
(nonpositive) starting values of the process-wide leaf counter - in
particular, a first build starting at 0 and a second build inheriting the
decremented counter - yields trees that answer identically on every index_of
and contains query. -/
theorem builds_with_different_leaf_counters_agree (A s : List Nat)
    (c0 c1 : Int) (h0 : c0 ≤ 0) (h1 : c1 ≤ 0) (p : List Nat) :
    (build_from A s c0).map (fun t => index_of t p) =
      (build_from A s c1).map (fun t => index_of t p) ∧
    (build_from A s c0).map (fun t => contains t p) =
      (build_from A s c1).map (fun t => contains t p) := by
  rcases optrel_cases (rel_build_from A s c0 c1 h0 h1) with
    ⟨hg1, hg2⟩ | ⟨a, b, hg1, hg2, hab⟩
  · rw [hg1, hg2]
    exact ⟨rfl, rfl⟩
  · rw [hg1, hg2]
    constructor
    · simp only [Option.map_some', Option.some.injEq]
      exact rel_index_of hab p
    · simp only [Option.map_some', Option.some.injEq]
      unfold contains
      rw [rel_index_of hab p]

theorem builds_with_different_leaf_counters_agree_witness :
    (build_from (suffixTreeAlphabet [1]) [1] 0).map
        (fun t => index_of t [1, terminal_symbol]) =
      (build_from (suffixTreeAlphabet [1]) [1] (-2)).map
        (fun t => index_of t [1, terminal_symbol]) ∧
    (build_from (suffixTreeAlphabet [1]) [1] 0).map
        (fun t => contains t [1, terminal_symbol]) =
      (build_from (suffixTreeAlphabet [1]) [1] (-2)).map
        (fun t => contains t [1, terminal_symbol]) :=
  builds_with_different_leaf_counters_agree (suffixTreeAlphabet [1]) [1] 0 (-2)
    (by decide) (by decide) [1, terminal_symbol]

/- ---------------------------------------------------------------------- -/
/- Termination of construction (claim C7): ghost-depth development.        -/
/- ---------------------------------------------------------------------- -/

theorem alphabet_index_of_bounds (A : List Nat) (c : Nat) :
    -1 ≤ alphabet_index_of A c ∧ alphabet_index_of A c < (A.length : Int) := by
  unfold alphabet_index_of
  suffices h : ∀ (l : List Nat) (acc : Int × Int), -1 ≤ acc.1 → acc.1 < acc.2 →
      -1 ≤ (l.foldl (fun (acc : Int × Int) x =>
        (if x = c then acc.2 else acc.1, acc.2 + 1)) acc).1 ∧
      (l.foldl (fun (acc : Int × Int) x =>
        (if x = c then acc.2 else acc.1, acc.2 + 1)) acc).1 <
      (l.foldl (fun (acc : Int × Int) x =>
        (if x = c then acc.2 else acc.1, acc.2 + 1)) acc).2 ∧
      (l.foldl (fun (acc : Int × Int) x =>
        (if x = c then acc.2 else acc.1, acc.2 + 1)) acc).2 = acc.2 + l.length by
    obtain ⟨h1, h2, h3⟩ := h A (-1, 0) (le_refl _) (by omega)
    refine ⟨h1, ?_⟩
    rw [h3] at h2
    omega
  intro l
  induction l with
  | nil => intro acc ha hb; exact ⟨ha, hb, by simp⟩
  | cons x xs ih =>
    intro acc ha hb
    simp only [List.foldl_cons]
    obtain ⟨h1, h2, h3⟩ := ih (if x = c then acc.2 else acc.1, acc.2 + 1)
      (by split <;> omega) (by split <;> omega)
    refine ⟨h1, h2, ?_⟩
    rw [h3]
    simp only [List.length_cons]
    push_cast
    ring

theorem alphabet_slot_lt (A : List Nat) (c : Nat) (hk : 1 ≤ A.length) :
    (alphabet_index_of A c).toNat < A.length := by
  obtain ⟨h1, h2⟩ := alphabet_index_of_bounds A c
  omega

theorem child_of_eq_childAt (t : SuffixTree) (r : Int) (ch : Nat) :
    child_of t r ch = childAt t r.toNat (alphabet_index_of t.alphabet ch).toNat :=
  rfl

theorem depth_lb (t : SuffixTree) (d : Nat → Int) (hd : DepthOK t d) (m : Nat) :
    -1 ≤ d m := by
  obtain ⟨h0, h1, hoor, hnn, _, _⟩ := hd
  by_cases hm : m < t.node_allocator.length
  · by_cases hm1 : m = 1
    · subst hm1; omega
    · have := hnn m hm hm1; omega
  · rw [hoor m (le_of_not_lt hm)]; omega

theorem depth_nonneg (t : SuffixTree) (d : Nat → Int) (hd : DepthOK t d)
    (m : Nat) (hm : m ≠ 1) : 0 ≤ d m := by
  obtain ⟨h0, h1, hoor, hnn, _, _⟩ := hd
  by_cases hlt : m < t.node_allocator.length
  · exact hnn m hlt hm
  · rw [hoor m (le_of_not_lt hlt)]; omega

theorem edge_arena_pos (t : SuffixTree) (hD : DummyOK t) :
    0 < t.edge_allocator.length := by
  obtain ⟨hk, _, _, _, he⟩ := hD
  have h0 := he 0 hk
  by_contra hb
  rw [get_edge_oor t _ (by omega)] at h0
  simp only [Edge.mk.injEq] at h0
  omega

theorem dummy_edge_lt (t : SuffixTree) (hD : DummyOK t) (i : Nat)
    (hi : i < t.alphabet.length) : i < t.edge_allocator.length := by
  obtain ⟨hk, _, _, _, he⟩ := hD
  have h0 := he i hi
  by_contra hb
  rw [get_edge_oor t _ (by omega)] at h0
  simp only [Edge.mk.injEq] at h0
  omega

theorem get_edge_neg (t : SuffixTree) (hD : DummyOK t) (r : Int) (hr : r < 0) :
    get_edge_by t r = { start_position := -1, length := 1, next_node_addr := 0 } := by
  have h0 := hD.2.2.2.2 0 hD.1
  have : get_edge_by t r = get_edge_by t ((0 : Nat) : Int) := by
    unfold get_edge_by
    congr 1
    omega
  rw [this, h0]

theorem childAt_oor_node (t : SuffixTree) (i s : Nat)
    (hi : t.node_allocator.length ≤ i) : childAt t i s = no_connection := by
  unfold childAt
  rw [getD_ge _ _ _ hi]
  simp [no_connection]

theorem childAt_valid (t : SuffixTree) (hN : NodesGood t) (i s : Nat)
    (h : ¬ childAt t i s = no_connection) :
    0 ≤ childAt t i s ∧ (childAt t i s).toNat < t.edge_allocator.length ∧
      i < t.node_allocator.length := by
  by_cases hi : i < t.node_allocator.length
  · unfold childAt at h ⊢
    by_cases hs : s < (t.node_allocator.getD i
        { suffix_connection := 0, edges_to_childs := [] }).edges_to_childs.length
    · rcases hN _ (getD_mem _ _ _ hi) _ (getD_mem _ _ _ hs) with h1 | h1
      · exact absurd h1 h
      · exact ⟨h1.1, h1.2, hi⟩
    · rw [getD_ge _ _ _ (le_of_not_lt hs)] at h
      exact absurd rfl h
  · rw [childAt_oor_node t i s (le_of_not_lt hi)] at h
    exact absurd rfl h

/-- Everything needed about a child-slot lookup: the looked-up edge has
length at least 1, its stated depth gain is legal, its child stays below the
node-arena bound, and when the edge is longer than 1 the reference is a
genuine arena index sitting in a child slot of the source node. -/
theorem child_edge_facts (t : SuffixTree) (d : Nat → Int) (hS : SInv t)
    (hd : DepthOK t d) (r : Int) (ch : Nat) :
    1 ≤ (get_edge_by t (child_of t r ch)).length ∧
      d ((get_edge_by t (child_of t r ch)).next_node_addr.toNat) ≤
        d r.toNat + (get_edge_by t (child_of t r ch)).length ∧
      (get_edge_by t (child_of t r ch)).next_node_addr <
        (t.node_allocator.length : Int) ∧
      (1 < (get_edge_by t (child_of t r ch)).length →
        0 ≤ child_of t r ch ∧
          (child_of t r ch).toNat < t.edge_allocator.length ∧
          ∃ s, childAt t r.toNat s = child_of t r ch) := by
  obtain ⟨hE, hN, hP, hD, hNB, hLB, hPU⟩ := hS
  rw [child_of_eq_childAt]
  by_cases hc : childAt t r.toNat (alphabet_index_of t.alphabet ch).toNat =
      no_connection
  · rw [hc]
    rw [get_edge_neg t hD no_connection (by unfold no_connection; omega)]
    have h2 : 2 ≤ t.node_allocator.length := hD.2.1
    have hlb := depth_lb t d hd r.toNat
    have hd0 : d 0 = 0 := hd.1
    refine ⟨le_refl 1, ?_, ?_, ?_⟩
    · simp only [Int.toNat_zero]
      omega
    · simp only []
      omega
    · intro h1'
      simp only [] at h1'
      omega
  · obtain ⟨hge, hlt, hi⟩ := childAt_valid t hN _ _ hc
    have hmem := get_edge_mem t _ hlt
    have hg := hE _ hmem
    have hnb := hNB _ hmem
    have hdep := hd.2.2.2.2.1 r.toNat (alphabet_index_of t.alphabet ch).toNat hi hge
    exact ⟨hg.1, hdep, hnb, fun _ => ⟨hge, hlt, ⟨_, rfl⟩⟩⟩

theorem link_depth_le (t : SuffixTree) (d : Nat → Int) (hd : DepthOK t d)
    (r : Int) (h1 : r.toNat ≠ 1) :
    d ((get_node_by t r).suffix_connection.toNat) ≤ d r.toNat - 1 := by
  by_cases hr : r.toNat < t.node_allocator.length
  · exact hd.2.2.2.2.2 r.toNat hr h1
  · rw [get_node_oor t r (le_of_not_lt hr)]
    have := hd.2.2.1 r.toNat (le_of_not_lt hr)
    have hd0 : d 0 = 0 := hd.1
    simp only [Int.toNat_zero]
    omega

theorem link_bound_lt (t : SuffixTree) (hS : SInv t) (r : Int) :
    (get_node_by t r).suffix_connection < (t.node_allocator.length : Int) := by
  by_cases hr : r.toNat < t.node_allocator.length
  · exact hS.2.2.2.2.2.1 _ (get_node_mem t r hr)
  · rw [get_node_oor t r (le_of_not_lt hr)]
    have h2 : 2 ≤ t.node_allocator.length := hS.2.2.2.1.2.1
    simp only []
    omega

/-- The skip/count loop always succeeds within its position-derived fuel, and
never increases the potential (ghost depth of the node plus pending
position). -/
theorem go_skip_term (t : SuffixTree) (d : Nat → Int) (hS : SInv t)
    (hd : DepthOK t d) (src : Int) :
    ∀ (fuel : Nat) (processed : Int) (it : InnerPosition),
      0 < it.position → it.position < (fuel : Int) →
      it.node_addr < (t.node_allocator.length : Int) →
      (get_edge_by t it.edge_addr).next_node_addr <
        (t.node_allocator.length : Int) →
      1 ≤ (get_edge_by t it.edge_addr).length →
      d ((get_edge_by t it.edge_addr).next_node_addr.toNat) ≤
        d it.node_addr.toNat + (get_edge_by t it.edge_addr).length →
      (1 < (get_edge_by t it.edge_addr).length →
        0 ≤ it.edge_addr ∧ it.edge_addr.toNat < t.edge_allocator.length ∧
          ∃ s, childAt t it.node_addr.toNat s = it.edge_addr) →
      ∃ it', go_skip t src fuel processed it = some it' ∧
        d it'.node_addr.toNat + it'.position ≤
          d it.node_addr.toNat + it.position ∧
        ItInv t it' := by
  intro fuel
  induction fuel with
  | zero =>
    intro processed it hpos hfuel hb hnb hlen hdep hval
    exact absurd hfuel (by omega)
  | succ fuel ih =>
    intro processed it hpos hfuel hb hnb hlen hdep hval
    by_cases hle : (get_edge_by t it.edge_addr).length ≤ it.position
    · by_cases hz : it.position - (get_edge_by t it.edge_addr).length = 0
      · refine ⟨{ node_addr := (get_edge_by t it.edge_addr).next_node_addr,
                  edge_addr := no_connection,
                  position := it.position - (get_edge_by t it.edge_addr).length },
          ?_, ?_, ?_, ?_, ?_⟩
        · simp only [go_skip]
          rw [if_pos hle]
          rw [if_pos hz]
        · simp only []
          omega
        · constructor
          · simp only []
            omega
          · intro hp
            simp only [] at hp
            omega
        · intro hp
          simp only [] at hp
          omega
        · simpa using hnb
      · have hpos2 : (0:Int) < it.position - (get_edge_by t it.edge_addr).length := by
          omega
        obtain ⟨hlen2, hdep2, hnb2, hval2⟩ := child_edge_facts t d hS hd
          (get_edge_by t it.edge_addr).next_node_addr
          (charAt t.expanded_string
            (src + (processed + (get_edge_by t it.edge_addr).length)))
        obtain ⟨it', heq, hphi, hinv⟩ := ih
          (processed + (get_edge_by t it.edge_addr).length)
          { node_addr := (get_edge_by t it.edge_addr).next_node_addr,
            edge_addr := child_of t (get_edge_by t it.edge_addr).next_node_addr
              (charAt t.expanded_string
                (src + (processed + (get_edge_by t it.edge_addr).length))),
            position := it.position - (get_edge_by t it.edge_addr).length }
          hpos2
          (by show it.position - (get_edge_by t it.edge_addr).length < (fuel : Int)
              push_cast at hfuel ⊢
              omega)
          (by simpa using hnb)
          (by simpa using hnb2) (by simpa using hlen2) (by simpa using hdep2)
          (by simpa using hval2)
        refine ⟨it', ?_, ?_, hinv⟩
        · simp only [go_skip]
          rw [if_pos hle]
          rw [if_neg hz]
          exact heq
        · simp only [] at hphi
          omega
    · refine ⟨it, ?_, le_refl _, ⟨le_of_lt hpos, ?_⟩, ?_, hb⟩
      · simp only [go_skip]
        rw [if_neg hle]
      · intro _
        have h2 : 1 < (get_edge_by t it.edge_addr).length := by omega
        exact ⟨(hval h2).2.1, by omega⟩
      · intro _
        have h2 : 1 < (get_edge_by t it.edge_addr).length := by omega
        exact (hval h2).2.2

/-- go_using_suffix_connection always succeeds when started off the dummy
node, and strictly decreases the potential. -/
theorem go_conn_term (t : SuffixTree) (d : Nat → Int) (hS : SInv t)
    (hd : DepthOK t d) (it : InnerPosition) (h0 : 0 ≤ it.position)
    (h1 : it.node_addr.toNat ≠ 1) :
    ∃ it', go_using_suffix_connection t it = some it' ∧
      d it'.node_addr.toNat + it'.position ≤
        d it.node_addr.toNat + it.position - 1 ∧
      ItInv t it' := by
  have hld := link_depth_le t d hd it.node_addr h1
  have hlb := link_bound_lt t hS it.node_addr
  by_cases hz : it.position = 0
  · refine ⟨{ node_addr := (get_node_by t it.node_addr).suffix_connection,
              edge_addr := no_connection, position := it.position },
      ?_, ?_, ?_, ?_, ?_⟩
    · simp only [go_using_suffix_connection]
      rw [if_pos hz]
    · simp only []
      omega
    · exact ⟨h0, fun hp =>
        absurd (show (0:Int) < it.position from hp) (by omega)⟩
    · intro hp
      exact absurd (show (0:Int) < it.position from hp) (by omega)
    · simpa using hlb
  · have hpos : (0:Int) < it.position := by omega
    obtain ⟨hlen2, hdep2, hnb2, hval2⟩ := child_edge_facts t d hS hd
      (get_node_by t it.node_addr).suffix_connection
      (charAt t.expanded_string (get_edge_by t it.edge_addr).start_position)
    obtain ⟨it', heq, hphi, hinv⟩ := go_skip_term t d hS hd
      (get_edge_by t it.edge_addr).start_position (it.position.toNat + 1) 0
      { node_addr := (get_node_by t it.node_addr).suffix_connection,
        edge_addr := child_of t (get_node_by t it.node_addr).suffix_connection
          (charAt t.expanded_string (get_edge_by t it.edge_addr).start_position),
        position := it.position }
      hpos
      (by show it.position < ((it.position.toNat + 1 : Nat) : Int)
          push_cast
          omega)
      (by simpa using hlb)
      (by simpa using hnb2) (by simpa using hlen2) (by simpa using hdep2)
      (by simpa using hval2)
    refine ⟨it', ?_, ?_, hinv⟩
    · simp only [go_using_suffix_connection]
      rw [if_neg hz]
      exact heq
    · simp only [] at hphi
      omega

theorem getD_set_self {α : Type} (l : List α) (n : Nat) (a d : α)
    (h : n < l.length) : (l.set n a).getD n d = a := by
  rw [getD_lt _ _ _ (by simpa using h)]
  simp [List.getElem_set]

theorem getD_set_other {α : Type} (l : List α) (m n : Nat) (a d : α)
    (h : m ≠ n) : (l.set m a).getD n d = l.getD n d := by
  by_cases hn : n < l.length
  · rw [getD_lt _ _ _ (by simpa using hn), getD_lt _ _ _ hn]
    simp [List.getElem_set, h]
  · rw [getD_ge _ _ _ (by simpa using le_of_not_lt hn),
      getD_ge _ _ _ (le_of_not_lt hn)]

theorem getD_append_len {α : Type} (l : List α) (b d : α) :
    (l ++ [b]).getD l.length d = b := by
  rw [getD_lt _ _ _ (by simp)]
  simp

theorem getD_replicate_lt {α : Type} (k s : Nat) (a d : α) (h : s < k) :
    (List.replicate k a).getD s d = a := by
  rw [getD_lt _ _ _ (by simpa using h)]
  simp

theorem getD_replicate_ge {α : Type} (k s : Nat) (a d : α) (h : k ≤ s) :
    (List.replicate k a).getD s d = d :=
  getD_ge _ _ _ (by simpa using h)

theorem int_eq_of_toNat_eq {a b : Int} (ha : 0 ≤ a) (hb : 0 ≤ b)
    (h : a.toNat = b.toNat) : a = b := by omega

/-- Node-arena shape of create_new_edge_to_leaf_from_node. -/
theorem create_leaf_nodes (t : SuffixTree) (lc : Int) (pos : Nat) (nd : Int) :
    (create_new_edge_to_leaf_from_node t lc pos nd).1.node_allocator =
      t.node_allocator.set nd.toNat
        { suffix_connection := (get_node_by t nd).suffix_connection,
          edges_to_childs := (get_node_by t nd).edges_to_childs.set
            (alphabet_index_of t.alphabet
              (charAt t.expanded_string (pos : Int))).toNat
            (t.edge_allocator.length : Int) } := by
  simp only [create_new_edge_to_leaf_from_node, allocate_edge, set_edge,
    set_child, set_child_slot, set_node, get_node_by, Int.toNat_natCast]

/-- Node-arena shape of add_node_in: one new node owning the freshly
allocated second-half edge. -/
theorem add_node_in_nodes (t : SuffixTree) (it : InnerPosition)
    (hv : it.edge_addr.toNat < t.edge_allocator.length) :
    (add_node_in t it).1.node_allocator =
      t.node_allocator ++
        [{ suffix_connection := 0,
           edges_to_childs :=
             (List.replicate t.alphabet.length no_connection).set
               (alphabet_index_of t.alphabet
                 (charAt t.expanded_string
                   ((get_edge_by t it.edge_addr).start_position +
                     it.position))).toNat
               (t.edge_allocator.length : Int) }] := by
  have hg : ∀ x : Edge, (t.edge_allocator ++ [x]).getD it.edge_addr.toNat
      { start_position := 0, length := 0, next_node_addr := 0 } =
      get_edge_by t it.edge_addr := by
    intro x
    rw [getD_append_lt _ _ _ _ hv]
    rfl
  simp only [add_node_in, allocate_edge, allocate_node, set_edge, set_child,
    set_child_slot, set_node, get_edge_by, get_node_by, Int.toNat_natCast]
  rw [hg]
  rw [getD_append_len]
  rw [set_append_last]
  rfl

theorem set_suffix_nodes (t : SuffixTree) (r target : Int) :
    (set_suffix_connection t r target).node_allocator =
      t.node_allocator.set r.toNat
        { suffix_connection := target,
          edges_to_childs := (get_node_by t r).edges_to_childs } := rfl

theorem set_suffix_edges (t : SuffixTree) (r target : Int) :
    (set_suffix_connection t r target).edge_allocator = t.edge_allocator := rfl

theorem set_suffix_alphabet (t : SuffixTree) (r target : Int) :
    (set_suffix_connection t r target).alphabet = t.alphabet := rfl

theorem set_suffix_expanded (t : SuffixTree) (r target : Int) :
    (set_suffix_connection t r target).expanded_string = t.expanded_string := rfl

theorem set_suffix_root (t : SuffixTree) (r target : Int) :
    (set_suffix_connection t r target).root_addr = t.root_addr := rfl

theorem childAt_set_suffix (t : SuffixTree) (r target : Int) (i s : Nat) :
    childAt (set_suffix_connection t r target) i s = childAt t i s := by
  unfold childAt
  rw [set_suffix_nodes]
  by_cases hr : r.toNat = i
  · subst hr
    by_cases hin : r.toNat < t.node_allocator.length
    · rw [getD_set_self _ _ _ _ hin]
      simp only [get_node_by]
    · rw [List.set_eq_of_length_le (le_of_not_lt hin)]
  · rw [getD_set_other _ _ _ _ _ hr]

theorem get_edge_create_leaf_old (t : SuffixTree) (lc : Int) (pos : Nat)
    (nd r : Int) (hr : r.toNat < t.edge_allocator.length) :
    get_edge_by (create_new_edge_to_leaf_from_node t lc pos nd).1 r =
      get_edge_by t r := by
  unfold get_edge_by
  rw [create_leaf_edges]
  rw [getD_append_lt _ _ _ _ hr]

theorem get_edge_create_leaf_new (t : SuffixTree) (lc : Int) (pos : Nat)
    (nd : Int) :
    get_edge_by (create_new_edge_to_leaf_from_node t lc pos nd).1
        (t.edge_allocator.length : Int) =
      { start_position := (pos : Int),
        length := (t.expanded_string.length : Int) - (pos : Int),
        next_node_addr := lc - 1 } := by
  unfold get_edge_by
  rw [create_leaf_edges]
  rw [Int.toNat_natCast]
  exact getD_append_len _ _ _

theorem childAt_create_leaf (t : SuffixTree) (lc : Int) (pos : Nat) (nd : Int)
    (i s : Nat) :
    childAt (create_new_edge_to_leaf_from_node t lc pos nd).1 i s =
        childAt t i s ∨
      (childAt (create_new_edge_to_leaf_from_node t lc pos nd).1 i s =
          (t.edge_allocator.length : Int) ∧ i = nd.toNat ∧
        s = (alphabet_index_of t.alphabet
          (charAt t.expanded_string (pos : Int))).toNat) := by
  unfold childAt
  rw [create_leaf_nodes]
  by_cases hr : nd.toNat = i
  · subst hr
    by_cases hin : nd.toNat < t.node_allocator.length
    · rw [getD_set_self _ _ _ _ hin]
      simp only [get_node_by]
      by_cases hs : (alphabet_index_of t.alphabet
          (charAt t.expanded_string (pos : Int))).toNat = s
      · subst hs
        by_cases hsl : (alphabet_index_of t.alphabet
            (charAt t.expanded_string (pos : Int))).toNat <
            (t.node_allocator.getD nd.toNat
              { suffix_connection := 0,
                edges_to_childs := [] }).edges_to_childs.length
        · right
          refine ⟨getD_set_self _ _ _ _ hsl, ?_, ?_⟩
          · trivial
          · trivial
        · left
          rw [List.set_eq_of_length_le (le_of_not_lt hsl)]
      · left
        rw [getD_set_other _ _ _ _ _ hs]
    · rw [List.set_eq_of_length_le (le_of_not_lt hin)]
      left
      rfl
  · rw [getD_set_other _ _ _ _ _ hr]
    left
    rfl

theorem add_node_in_edge_count (t : SuffixTree) (it : InnerPosition)
    (hv : it.edge_addr.toNat < t.edge_allocator.length) :
    (add_node_in t it).1.edge_allocator.length =
      t.edge_allocator.length + 1 := by
  rw [add_node_in_edges t it hv]
  simp

theorem get_edge_add_node_old (t : SuffixTree) (it : InnerPosition)
    (hv : it.edge_addr.toNat < t.edge_allocator.length) (r : Int)
    (hr : r.toNat < t.edge_allocator.length)
    (hne : r.toNat ≠ it.edge_addr.toNat) :
    get_edge_by (add_node_in t it).1 r = get_edge_by t r := by
  unfold get_edge_by
  rw [add_node_in_edges t it hv]
  rw [getD_append_lt _ _ _ _ (by simpa using hr)]
  rw [getD_set_other _ _ _ _ _ (fun h => hne h.symm)]

theorem get_edge_add_node_trunc (t : SuffixTree) (it : InnerPosition)
    (hv : it.edge_addr.toNat < t.edge_allocator.length) :
    get_edge_by (add_node_in t it).1 it.edge_addr =
      { start_position := (get_edge_by t it.edge_addr).start_position,
        length := it.position,
        next_node_addr := (t.node_allocator.length : Int) } := by
  unfold get_edge_by
  rw [add_node_in_edges t it hv]
  rw [getD_append_lt _ _ _ _ (by simpa using hv)]
  rw [getD_set_self _ _ _ _ hv]
  rfl

theorem get_edge_add_node_new (t : SuffixTree) (it : InnerPosition)
    (hv : it.edge_addr.toNat < t.edge_allocator.length) :
    get_edge_by (add_node_in t it).1 (t.edge_allocator.length : Int) =
      { start_position := (get_edge_by t it.edge_addr).start_position +
          it.position,
        length := (get_edge_by t it.edge_addr).length - it.position,
        next_node_addr := (get_edge_by t it.edge_addr).next_node_addr } := by
  unfold get_edge_by
  rw [add_node_in_edges t it hv]
  rw [Int.toNat_natCast]
  have hl : (t.edge_allocator.set it.edge_addr.toNat
      { start_position := (get_edge_by t it.edge_addr).start_position,
        length := it.position,
        next_node_addr := (t.node_allocator.length : Int) }).length =
      t.edge_allocator.length := by simp
  rw [← hl]
  exact getD_append_len _ _ _

theorem add_node_in_node_count (t : SuffixTree) (it : InnerPosition)
    (hv : it.edge_addr.toNat < t.edge_allocator.length) :
    (add_node_in t it).1.node_allocator.length =
      t.node_allocator.length + 1 := by
  rw [add_node_in_nodes t it hv]
  simp

theorem childAt_add_node_old (t : SuffixTree) (it : InnerPosition)
    (hv : it.edge_addr.toNat < t.edge_allocator.length) (i s : Nat)
    (hi : i < t.node_allocator.length) :
    childAt (add_node_in t it).1 i s = childAt t i s := by
  unfold childAt
  rw [add_node_in_nodes t it hv]
  rw [getD_append_lt _ _ _ _ hi]

theorem childAt_add_node_new (t : SuffixTree) (it : InnerPosition)
    (hv : it.edge_addr.toNat < t.edge_allocator.length) (s : Nat) :
    childAt (add_node_in t it).1 t.node_allocator.length s =
        (t.edge_allocator.length : Int) ∨
      childAt (add_node_in t it).1 t.node_allocator.length s = no_connection := by
  unfold childAt
  rw [add_node_in_nodes t it hv]
  rw [getD_append_len]
  simp only []
  by_cases hs : (alphabet_index_of t.alphabet
      (charAt t.expanded_string
        ((get_edge_by t it.edge_addr).start_position + it.position))).toNat = s
  · by_cases hsl : (alphabet_index_of t.alphabet
        (charAt t.expanded_string
          ((get_edge_by t it.edge_addr).start_position + it.position))).toNat <
        t.alphabet.length
    · left
      rw [← hs]
      rw [getD_set_self _ _ _ _ (by simpa using hsl)]
    · right
      rw [List.set_eq_of_length_le (by simpa using le_of_not_lt hsl)]
      rw [← hs]
      exact getD_replicate_ge _ _ _ _ (le_of_not_lt hsl)
  · right
    rw [getD_set_other _ _ _ _ _ hs]
    by_cases hsl : s < t.alphabet.length
    · exact getD_replicate_lt _ _ _ _ hsl
    · exact getD_replicate_ge _ _ _ _ (le_of_not_lt hsl)

theorem childAt_add_node_oor (t : SuffixTree) (it : InnerPosition)
    (hv : it.edge_addr.toNat < t.edge_allocator.length) (i s : Nat)
    (hi : t.node_allocator.length + 1 ≤ i) :
    childAt (add_node_in t it).1 i s = no_connection := by
  apply childAt_oor_node
  rw [add_node_in_node_count t it hv]
  exact hi

theorem get_edge_set_suffix (t : SuffixTree) (r target x : Int) :
    get_edge_by (set_suffix_connection t r target) x = get_edge_by t x := rfl

theorem childAt_lt_count (t : SuffixTree) (hN : NodesGood t) (i s : Nat)
    (h : 0 ≤ childAt t i s) :
    childAt t i s < (t.edge_allocator.length : Int) := by
  have hne : ¬ childAt t i s = no_connection := by
    intro hc
    rw [hc] at h
    exact absurd h (by norm_num [no_connection])
  have := childAt_valid t hN i s hne
  omega

theorem rootlink_set_suffix (t : SuffixTree) (r target : Int)
    (h : RootLinkOK t) (hr : r.toNat ≠ 0) :
    RootLinkOK (set_suffix_connection t r target) := by
  unfold RootLinkOK at h ⊢
  rw [set_suffix_nodes]
  rw [getD_set_other _ _ _ _ _ hr]
  exact h

theorem rootlink_create_leaf (t : SuffixTree) (lc : Int) (pos : Nat) (nd : Int)
    (h : RootLinkOK t) :
    RootLinkOK (create_new_edge_to_leaf_from_node t lc pos nd).1 := by
  unfold RootLinkOK at h ⊢
  rw [create_leaf_nodes]
  by_cases hnd : nd.toNat = 0
  · by_cases hin : nd.toNat < t.node_allocator.length
    · rw [hnd]
      rw [getD_set_self _ _ _ _ (hnd ▸ hin)]
      simp only []
      show (get_node_by t nd).suffix_connection = 1
      unfold get_node_by
      rw [hnd]
      exact h
    · rw [List.set_eq_of_length_le (le_of_not_lt hin)]
      exact h
  · rw [getD_set_other _ _ _ _ _ hnd]
    exact h

theorem rootlink_add_node (t : SuffixTree) (it : InnerPosition)
    (hv : it.edge_addr.toNat < t.edge_allocator.length)
    (h : RootLinkOK t) (hlen : 0 < t.node_allocator.length) :
    RootLinkOK (add_node_in t it).1 := by
  unfold RootLinkOK at h ⊢
  rw [add_node_in_nodes t it hv]
  rw [getD_append_lt _ _ _ _ hlen]
  exact h

theorem sinv_set_suffix (t : SuffixTree) (r target : Int) (hS : SInv t)
    (htb : target < (t.node_allocator.length : Int)) :
    SInv (set_suffix_connection t r target) := by
  obtain ⟨hE, hN, hP, hD, hNB, hLB, hPU⟩ := hS
  have hL : (set_suffix_connection t r target).node_allocator.length =
      t.node_allocator.length := by
    rw [set_suffix_nodes]
    simp
  refine ⟨hE, NodesGood_set_suffix_connection t r target hN, ?_, ?_, ?_, ?_, ?_⟩
  · intro nd hnd
    rw [set_suffix_nodes] at hnd
    by_cases hin : r.toNat < t.node_allocator.length
    · rcases List.mem_or_eq_of_mem_set hnd with h1 | h1
      · exact hP nd h1
      · subst h1
        show (get_node_by t r).edges_to_childs.length = t.alphabet.length
        exact hP _ (get_node_mem t r hin)
    · rw [List.set_eq_of_length_le (le_of_not_lt hin)] at hnd
      exact hP nd hnd
  · obtain ⟨hk, h2, hroot, hch, hed⟩ := hD
    refine ⟨hk, ?_, hroot, ?_, ?_⟩
    · rw [hL]
      exact h2
    · intro i hi
      rw [childAt_set_suffix]
      exact hch i hi
    · intro i hi
      rw [get_edge_set_suffix]
      exact hed i hi
  · intro e he
    rw [hL]
    exact hNB e he
  · intro nd hnd
    rw [hL]
    rw [set_suffix_nodes] at hnd
    by_cases hin : r.toNat < t.node_allocator.length
    · rcases List.mem_or_eq_of_mem_set hnd with h1 | h1
      · exact hLB nd h1
      · subst h1
        exact htb
    · rw [List.set_eq_of_length_le (le_of_not_lt hin)] at hnd
      exact hLB nd hnd
  · intro i1 s1 i2 s2 h1 h2
    rw [childAt_set_suffix] at h1 h2
    rw [childAt_set_suffix] at h2
    exact hPU i1 s1 i2 s2 h1 h2

theorem depthok_set_suffix (t : SuffixTree) (r target : Int) (d : Nat → Int)
    (hd : DepthOK t d)
    (hcase : r.toNat = 1 ∨ d target.toNat ≤ d r.toNat - 1) :
    DepthOK (set_suffix_connection t r target) d := by
  obtain ⟨h0, h1, hoor, hnn, hc, hf⟩ := hd
  have hL : (set_suffix_connection t r target).node_allocator.length =
      t.node_allocator.length := by
    rw [set_suffix_nodes]
    simp
  refine ⟨h0, h1, ?_, ?_, ?_, ?_⟩
  · intro m hm
    rw [hL] at hm
    exact hoor m hm
  · intro v hv hv1
    rw [hL] at hv
    exact hnn v hv hv1
  · intro v s hv hge
    rw [hL] at hv
    rw [childAt_set_suffix] at hge ⊢
    rw [get_edge_set_suffix]
    exact hc v s hv hge
  · intro v hv hv1
    rw [hL] at hv
    rw [set_suffix_nodes]
    by_cases hvr : r.toNat = v
    · subst hvr
      rw [getD_set_self _ _ _ _ hv]
      simp only []
      rcases hcase with hcase | hcase
      · exact absurd hcase hv1
      · exact hcase
    · rw [getD_set_other _ _ _ _ _ hvr]
      exact hf v hv hv1

theorem create_leaf_node_count (t : SuffixTree) (lc : Int) (pos : Nat)
    (nd : Int) :
    (create_new_edge_to_leaf_from_node t lc pos nd).1.node_allocator.length =
      t.node_allocator.length := by
  rw [create_leaf_nodes]
  simp

theorem sinv_create_leaf (t : SuffixTree) (lc : Int) (pos : Nat) (nd : Int)
    (hS : SInv t) (hpos : pos < t.expanded_string.length) (hlc : lc ≤ 0)
    (hnd1 : nd.toNat ≠ 1) :
    SInv (create_new_edge_to_leaf_from_node t lc pos nd).1 := by
  obtain ⟨hE, hN, hP, hD, hNB, hLB, hPU⟩ := hS
  refine ⟨EdgesGood_create_leaf t lc pos nd hE hpos,
    NodesGood_create_leaf t lc pos nd hN, ?_, ?_, ?_, ?_, ?_⟩
  · intro m hm
    rw [create_leaf_nodes] at hm
    by_cases hin : nd.toNat < t.node_allocator.length
    · rcases List.mem_or_eq_of_mem_set hm with h1 | h1
      · exact hP m h1
      · subst h1
        show ((get_node_by t nd).edges_to_childs.set _ _).length = t.alphabet.length
        rw [List.length_set]
        exact hP _ (get_node_mem t nd hin)
    · rw [List.set_eq_of_length_le (le_of_not_lt hin)] at hm
      exact hP m hm
  · refine ⟨hD.1, ?_, ?_, ?_, ?_⟩
    · rw [create_leaf_node_count]
      exact hD.2.1
    · rw [create_leaf_root]
      exact hD.2.2.1
    · intro i hi
      rcases childAt_create_leaf t lc pos nd 1 i with h1 | h1
      · rw [h1]
        exact hD.2.2.2.1 i hi
      · exact absurd h1.2.1.symm hnd1
    · intro i hi
      rw [get_edge_create_leaf_old t lc pos nd _
        (by rw [Int.toNat_natCast]; exact dummy_edge_lt t hD i hi)]
      exact hD.2.2.2.2 i hi
  · intro e he
    rw [create_leaf_edges] at he
    rw [create_leaf_node_count]
    rcases List.mem_append.mp he with h1 | h1
    · exact hNB e h1
    · simp only [List.mem_singleton] at h1
      subst h1
      have h2 : 2 ≤ t.node_allocator.length := hD.2.1
      simp only []
      omega
  · intro m hm
    rw [create_leaf_node_count]
    rw [create_leaf_nodes] at hm
    by_cases hin : nd.toNat < t.node_allocator.length
    · rcases List.mem_or_eq_of_mem_set hm with h1 | h1
      · exact hLB m h1
      · subst h1
        show (get_node_by t nd).suffix_connection < _
        exact hLB _ (get_node_mem t nd hin)
    · rw [List.set_eq_of_length_le (le_of_not_lt hin)] at hm
      exact hLB m hm
  · intro i1 s1 i2 s2 hge heq
    rcases childAt_create_leaf t lc pos nd i1 s1 with a1 | a1 <;>
      rcases childAt_create_leaf t lc pos nd i2 s2 with a2 | a2
    · rw [a1] at hge heq
      rw [a2] at heq
      exact hPU i1 s1 i2 s2 hge heq
    · rw [a1] at hge heq
      rw [a2.1] at heq
      have := childAt_lt_count t hN i1 s1 hge
      omega
    · rw [a1.1] at hge heq
      rw [a2] at heq
      have hge2 : 0 ≤ childAt t i2 s2 := by omega
      have := childAt_lt_count t hN i2 s2 hge2
      omega
    · rw [a1.2.1, a2.2.1, a1.2.2, a2.2.2]
      exact ⟨rfl, rfl⟩

theorem depthok_create_leaf (t : SuffixTree) (lc : Int) (pos : Nat) (nd : Int)
    (d : Nat → Int) (hS : SInv t) (hd : DepthOK t d)
    (hpos : pos < t.expanded_string.length) (hlc : lc ≤ 0)
    (hnd1 : nd.toNat ≠ 1) :
    DepthOK (create_new_edge_to_leaf_from_node t lc pos nd).1 d := by
  have hN := hS.2.1
  obtain ⟨h0, h1, hoor, hnn, hc, hf⟩ := hd
  refine ⟨h0, h1, ?_, ?_, ?_, ?_⟩
  · intro m hm
    rw [create_leaf_node_count] at hm
    exact hoor m hm
  · intro v hv hv1
    rw [create_leaf_node_count] at hv
    exact hnn v hv hv1
  · intro v s hv hge
    rw [create_leaf_node_count] at hv
    rcases childAt_create_leaf t lc pos nd v s with a1 | a1
    · rw [a1] at hge ⊢
      have hne : ¬ childAt t v s = no_connection := by
        intro hcn
        rw [hcn] at hge
        exact absurd hge (by norm_num [no_connection])
      have hval := childAt_valid t hN v s hne
      rw [get_edge_create_leaf_old t lc pos nd _ hval.2.1]
      exact hc v s hv hge
    · rw [a1.1]
      rw [get_edge_create_leaf_new]
      simp only []
      have hz : (lc - 1).toNat = 0 := by omega
      rw [hz, h0]
      have hdv : 0 ≤ d v := hnn v hv (a1.2.1 ▸ hnd1)
      have hN2 : pos < t.expanded_string.length := hpos
      omega
  · intro v hv hv1
    rw [create_leaf_node_count] at hv
    rw [create_leaf_nodes]
    by_cases hvr : nd.toNat = v
    · subst hvr
      rw [getD_set_self _ _ _ _ hv]
      show d (get_node_by t nd).suffix_connection.toNat ≤ d nd.toNat - 1
      exact hf nd.toNat hv hv1
    · rw [getD_set_other _ _ _ _ _ hvr]
      exact hf v hv hv1

theorem childAt_add_node_new_other (t : SuffixTree) (it : InnerPosition)
    (hv : it.edge_addr.toNat < t.edge_allocator.length) (s : Nat)
    (hs : s ≠ (alphabet_index_of t.alphabet
      (charAt t.expanded_string
        ((get_edge_by t it.edge_addr).start_position + it.position))).toNat) :
    childAt (add_node_in t it).1 t.node_allocator.length s = no_connection := by
  unfold childAt
  rw [add_node_in_nodes t it hv]
  rw [getD_append_len]
  simp only []
  rw [getD_set_other _ _ _ _ _ (fun h => hs h.symm)]
  by_cases hsl : s < t.alphabet.length
  · exact getD_replicate_lt _ _ _ _ hsl
  · exact getD_replicate_ge _ _ _ _ (le_of_not_lt hsl)

/-- In a split context the active edge reference is a genuine nonnegative
index, and the active node is a non-dummy in-range node. -/
theorem split_facts (t : SuffixTree) (it : InnerPosition) (hS : SInv t)
    (hit : ItInv t it) (hp : 0 < it.position)
    (hlt : it.position < (get_edge_by t it.edge_addr).length) :
    0 ≤ it.edge_addr ∧ it.node_addr.toNat ≠ 1 ∧
      it.node_addr.toNat < t.node_allocator.length := by
  have hD : DummyOK t := hS.2.2.2.1
  have he0 : 0 ≤ it.edge_addr := by
    by_contra hneg
    push_neg at hneg
    rw [get_edge_neg t hD it.edge_addr hneg] at hlt
    simp only [] at hlt
    omega
  obtain ⟨s0, hs0⟩ := hit.2.1 hp
  have hn1 : it.node_addr.toNat ≠ 1 := by
    intro hone
    rw [hone] at hs0
    by_cases hs0k : s0 < t.alphabet.length
    · rw [hD.2.2.2.1 s0 hs0k] at hs0
      have hde := hD.2.2.2.2 s0 hs0k
      rw [hs0] at hde
      rw [hde] at hlt
      simp only [] at hlt
      omega
    · have h1lt : (1:Nat) < t.node_allocator.length := by
        have := hD.2.1
        omega
      have hlen : (t.node_allocator.getD 1
          { suffix_connection := 0,
            edges_to_childs := [] }).edges_to_childs.length =
          t.alphabet.length := hS.2.2.1 _ (getD_mem _ _ _ h1lt)
      unfold childAt at hs0
      rw [getD_ge _ _ _ (by rw [hlen]; exact le_of_not_lt hs0k)] at hs0
      rw [← hs0] at he0
      exact absurd he0 (by norm_num [no_connection])
  have hne : ¬ childAt t it.node_addr.toNat s0 = no_connection := by
    rw [hs0]
    intro hcn
    rw [hcn] at he0
    exact absurd he0 (by norm_num [no_connection])
  exact ⟨he0, hn1, (childAt_valid t hS.2.1 _ _ hne).2.2⟩

theorem sinv_add_node (t : SuffixTree) (it : InnerPosition) (hS : SInv t)
    (hit : ItInv t it) (hp : 0 < it.position)
    (hlt : it.position < (get_edge_by t it.edge_addr).length) :
    SInv (add_node_in t it).1 := by
  obtain ⟨he0, hn1, hvn⟩ := split_facts t it hS hit hp hlt
  have hv : it.edge_addr.toNat < t.edge_allocator.length := (hit.1.2 hp).1
  obtain ⟨hE, hN, hP, hD, hNB, hLB, hPU⟩ := hS
  have hNcnt := add_node_in_node_count t it hv
  refine ⟨EdgesGood_add_node_in t it hE hp hv hlt,
    NodesGood_add_node_in t it hN, ?_, ?_, ?_, ?_, ?_⟩
  · intro m hm
    rw [add_node_in_nodes t it hv] at hm
    rcases List.mem_append.mp hm with h1 | h1
    · exact hP m h1
    · simp only [List.mem_singleton] at h1
      subst h1
      show ((List.replicate t.alphabet.length no_connection).set _ _).length = _
      rw [List.length_set, List.length_replicate]
      rfl
  · refine ⟨hD.1, ?_, ?_, ?_, ?_⟩
    · rw [hNcnt]
      have := hD.2.1
      omega
    · rw [add_node_in_root]
      exact hD.2.2.1
    · intro i hi
      rw [childAt_add_node_old t it hv 1 i (by have := hD.2.1; omega)]
      exact hD.2.2.2.1 i hi
    · intro i hi
      have hik : (i:Int).toNat < t.edge_allocator.length := by
        rw [Int.toNat_natCast]
        exact dummy_edge_lt t hD i hi
      have hine : (i:Int).toNat ≠ it.edge_addr.toNat := by
        intro hcontra
        have hde := hD.2.2.2.2 i hi
        have heqe : get_edge_by t it.edge_addr = get_edge_by t (i:Int) := by
          unfold get_edge_by
          rw [hcontra]
        rw [heqe, hde] at hlt
        simp only [] at hlt
        omega
      rw [get_edge_add_node_old t it hv _ hik hine]
      exact hD.2.2.2.2 i hi
  · intro e he
    rw [add_node_in_edges t it hv] at he
    rw [hNcnt]
    rcases List.mem_append.mp he with h1 | h1
    · rcases List.mem_or_eq_of_mem_set h1 with h2 | h2
      · have := hNB e h2
        push_cast
        omega
      · subst h2
        simp only []
        push_cast
        omega
    · simp only [List.mem_singleton] at h1
      subst h1
      simp only []
      have := hNB _ (get_edge_mem t _ hv)
      push_cast
      omega
  · intro m hm
    rw [add_node_in_nodes t it hv] at hm
    rw [hNcnt]
    rcases List.mem_append.mp hm with h1 | h1
    · have := hLB m h1
      push_cast
      omega
    · simp only [List.mem_singleton] at h1
      subst h1
      simp only []
      push_cast
      omega
  · intro i1 s1 i2 s2 hge heq
    by_cases ho1 : t.node_allocator.length + 1 ≤ i1
    · rw [childAt_add_node_oor t it hv i1 s1 ho1] at hge
      exact absurd hge (by norm_num [no_connection])
    · by_cases ho2 : t.node_allocator.length + 1 ≤ i2
      · rw [childAt_add_node_oor t it hv i2 s2 ho2] at heq
        rw [heq] at hge
        exact absurd hge (by norm_num [no_connection])
      · by_cases h1u : i1 = t.node_allocator.length
        · subst h1u
          rcases childAt_add_node_new t it hv s1 with b1 | b1
          · by_cases h2u : i2 = t.node_allocator.length
            · subst h2u
              by_cases hs1 : s1 = (alphabet_index_of t.alphabet
                  (charAt t.expanded_string
                    ((get_edge_by t it.edge_addr).start_position +
                      it.position))).toNat
              · by_cases hs2 : s2 = (alphabet_index_of t.alphabet
                    (charAt t.expanded_string
                      ((get_edge_by t it.edge_addr).start_position +
                        it.position))).toNat
                · exact ⟨rfl, hs1.trans hs2.symm⟩
                · rw [childAt_add_node_new_other t it hv s2 hs2] at heq
                  rw [heq] at hge
                  exact absurd hge (by norm_num [no_connection])
              · rw [childAt_add_node_new_other t it hv s1 hs1] at hge
                exact absurd hge (by norm_num [no_connection])
            · have h2lt : i2 < t.node_allocator.length := by omega
              rw [childAt_add_node_old t it hv i2 s2 h2lt] at heq
              rw [b1] at heq
              have hge2 : 0 ≤ childAt t i2 s2 := by
                rw [← heq]
                exact Int.natCast_nonneg _
              have := childAt_lt_count t hN i2 s2 hge2
              omega
          · rw [b1] at hge
            exact absurd hge (by norm_num [no_connection])
        · have h1lt : i1 < t.node_allocator.length := by omega
          rw [childAt_add_node_old t it hv i1 s1 h1lt] at hge heq
          by_cases h2u : i2 = t.node_allocator.length
          · subst h2u
            rcases childAt_add_node_new t it hv s2 with b2 | b2
            · rw [b2] at heq
              have := childAt_lt_count t hN i1 s1 hge
              omega
            · rw [b2] at heq
              rw [heq] at hge
              exact absurd hge (by norm_num [no_connection])
          · have h2lt : i2 < t.node_allocator.length := by omega
            rw [childAt_add_node_old t it hv i2 s2 h2lt] at heq
            exact hPU i1 s1 i2 s2 hge heq

theorem depthok_add_node (t : SuffixTree) (it : InnerPosition) (d : Nat → Int)
    (hS : SInv t) (hd : DepthOK t d) (hit : ItInv t it) (hp : 0 < it.position)
    (hlt : it.position < (get_edge_by t it.edge_addr).length) :
    DepthOK (add_node_in t it).1
      (fun m => if m = t.node_allocator.length
        then d it.node_addr.toNat + it.position else d m) := by
  obtain ⟨he0, hn1, hvn⟩ := split_facts t it hS hit hp hlt
  have hv : it.edge_addr.toNat < t.edge_allocator.length := (hit.1.2 hp).1
  obtain ⟨s0, hs0⟩ := hit.2.1 hp
  have hNcnt := add_node_in_node_count t it hv
  have h2 : 2 ≤ t.node_allocator.length := hS.2.2.2.1.2.1
  have hN := hS.2.1
  have hNB := hS.2.2.2.2.1
  have hLB := hS.2.2.2.2.2.1
  have hPU := hS.2.2.2.2.2.2
  obtain ⟨h0, h1, hoor, hnn, hc, hf⟩ := hd
  have hdn0 : 0 ≤ d it.node_addr.toNat := hnn _ hvn hn1
  refine ⟨?_, ?_, ?_, ?_, ?_, ?_⟩
  · simp only []
    rw [if_neg (by omega)]
    exact h0
  · simp only []
    rw [if_neg (by omega)]
    exact h1
  · intro m hm
    rw [hNcnt] at hm
    simp only []
    rw [if_neg (by omega)]
    exact hoor m (by omega)
  · intro v hv' hv1
    rw [hNcnt] at hv'
    simp only []
    by_cases hvu : v = t.node_allocator.length
    · rw [if_pos hvu]
      omega
    · rw [if_neg hvu]
      exact hnn v (by omega) hv1
  · intro v s hv' hge
    rw [hNcnt] at hv'
    simp only []
    by_cases hvu : v = t.node_allocator.length
    · subst hvu
      rcases childAt_add_node_new t it hv s with b1 | b1
      · rw [b1] at hge ⊢
        rw [get_edge_add_node_new t it hv]
        simp only []
        have hnext := hNB _ (get_edge_mem t _ hv)
        have hne : (get_edge_by t it.edge_addr).next_node_addr.toNat ≠
            t.node_allocator.length := by omega
        rw [if_neg hne, if_true]
        have hinst := hc it.node_addr.toNat s0 hvn (by rw [hs0]; exact he0)
        rw [hs0] at hinst
        omega
      · rw [b1] at hge
        exact absurd hge (by norm_num [no_connection])
    · have hvlt : v < t.node_allocator.length := by omega
      rw [childAt_add_node_old t it hv v s hvlt] at hge ⊢
      have hcne : ¬ childAt t v s = no_connection := by
        intro hcn
        rw [hcn] at hge
        exact absurd hge (by norm_num [no_connection])
      have hval := childAt_valid t hN v s hcne
      by_cases hre : (childAt t v s).toNat = it.edge_addr.toNat
      · have hreq : childAt t v s = it.edge_addr :=
          int_eq_of_toNat_eq hge he0 hre
        obtain ⟨hveq, hseq⟩ := hPU it.node_addr.toNat s0 v s
          (by rw [hs0]; exact he0) (by rw [hs0, hreq])
        rw [hreq]
        rw [get_edge_add_node_trunc t it hv]
        simp only [Int.toNat_natCast]
        rw [if_true, if_neg hvu]
        rw [← hveq]
      · rw [get_edge_add_node_old t it hv _ hval.2.1 hre]
        have hinst := hc v s hvlt hge
        have hnext := hNB _ (get_edge_mem t _ hval.2.1)
        have hne2 : (get_edge_by t (childAt t v s)).next_node_addr.toNat ≠
            t.node_allocator.length := by omega
        rw [if_neg hne2, if_neg hvu]
        exact hinst
  · intro v hv' hv1
    rw [hNcnt] at hv'
    simp only []
    rw [add_node_in_nodes t it hv]
    by_cases hvu : v = t.node_allocator.length
    · subst hvu
      rw [getD_append_len]
      simp only [Int.toNat_zero]
      rw [if_neg (by omega), if_true]
      rw [h0]
      omega
    · have hvlt : v < t.node_allocator.length := by omega
      rw [getD_append_lt _ _ _ _ hvlt]
      have hinst := hf v hvlt hv1
      have hlink := hLB (t.node_allocator.getD v
          { suffix_connection := 0, edges_to_childs := [] })
        (getD_mem t.node_allocator v
          { suffix_connection := 0, edges_to_childs := [] } hvlt)
      have hne : (t.node_allocator.getD v
          { suffix_connection := 0,
            edges_to_childs := [] }).suffix_connection.toNat ≠
          t.node_allocator.length := by omega
      rw [if_neg hne, if_neg hvu]
      exact hinst

theorem set_suffix_node_count (t : SuffixTree) (r target : Int) :
    (set_suffix_connection t r target).node_allocator.length =
      t.node_allocator.length := by
  rw [set_suffix_nodes]
  simp

theorem itinv_set_suffix (t : SuffixTree) (r target : Int) (it : InnerPosition)
    (h : ItInv t it) : ItInv (set_suffix_connection t r target) it := by
  obtain ⟨h1, h2, h3⟩ := h
  refine ⟨ItOK_set_suffix_connection t r target it h1, ?_, ?_⟩
  · intro hp
    obtain ⟨s, hs⟩ := h2 hp
    exact ⟨s, by rw [childAt_set_suffix]; exact hs⟩
  · rw [set_suffix_node_count]
    exact h3

theorem in_node_dest (t : SuffixTree) (pos : Nat) (it : InnerPosition)
    (h : is_position_in_node_without_path t pos it = true) :
    it.position = 0 ∧
      child_of t it.node_addr (charAt t.expanded_string (pos : Int)) =
        no_connection := by
  unfold is_position_in_node_without_path at h
  simp only [Bool.and_eq_true, decide_eq_true_eq] at h
  exact h

/-- A gap at a node is never detected at the dummy: all its child slots are
filled. -/
theorem in_node_not_dummy (t : SuffixTree) (pos : Nat) (it : InnerPosition)
    (hS : SInv t) (h : is_position_in_node_without_path t pos it = true) :
    it.node_addr.toNat ≠ 1 := by
  obtain ⟨hz, hc⟩ := in_node_dest t pos it h
  intro hone
  rw [child_of_eq_childAt, hone] at hc
  have hD : DummyOK t := hS.2.2.2.1
  have hslot := alphabet_slot_lt t.alphabet
    (charAt t.expanded_string (pos : Int)) hD.1
  rw [hD.2.2.2.1 _ hslot] at hc
  have : (0:Int) ≤ ((alphabet_index_of t.alphabet
      (charAt t.expanded_string (pos : Int))).toNat : Int) :=
    Int.natCast_nonneg _
  rw [hc] at this
  exact absurd this (by norm_num [no_connection])

/-- The node-gap loop of second_stage terminates within any fuel exceeding
the entry potential plus one, preserves all invariants and the ghost depth,
and does not increase the potential. -/
theorem stage2_node_loop_term :
    ∀ (fuel : Nat) (t : SuffixTree) (lc : Int) (pos : Nat) (it : InnerPosition)
      (d : Nat → Int),
      SInv t → RootLinkOK t → DepthOK t d → ItInv t it → lc ≤ 0 →
      pos < t.expanded_string.length →
      d it.node_addr.toNat + it.position + 1 < (fuel : Int) →
      ∃ t' lc' it', stage2_node_loop fuel t lc pos it = some (t', lc', it') ∧
        SInv t' ∧ RootLinkOK t' ∧ DepthOK t' d ∧ ItInv t' it' ∧ lc' ≤ 0 ∧
        d it'.node_addr.toNat + it'.position ≤
          d it.node_addr.toNat + it.position ∧
        t'.expanded_string = t.expanded_string
  | 0, t, lc, pos, it, d, hS, hR, hd, hit, hlc, hpos, hfuel => by
    have hlb := depth_lb t d hd it.node_addr.toNat
    have hp0 := hit.1.1
    exact absurd hfuel (by push_cast; omega)
  | fuel + 1, t, lc, pos, it, d, hS, hR, hd, hit, hlc, hpos, hfuel => by
    by_cases hcond : is_position_in_node_without_path t pos it = true
    · have hn1 := in_node_not_dummy t pos it hS hcond
      have hz := (in_node_dest t pos it hcond).1
      have hnd0 : 0 ≤ d it.node_addr.toNat :=
        depth_nonneg t d hd it.node_addr.toNat hn1
      have hS2 := sinv_create_leaf t lc pos it.node_addr hS hpos hlc hn1
      have hR2 := rootlink_create_leaf t lc pos it.node_addr hR
      have hd2 := depthok_create_leaf t lc pos it.node_addr d hS hd hpos hlc hn1
      obtain ⟨it1, hgo, hphi1, hinv1⟩ := go_conn_term
        (create_new_edge_to_leaf_from_node t lc pos it.node_addr).1 d hS2 hd2
        it hit.1.1 hn1
      have hlc2 : (create_new_edge_to_leaf_from_node t lc pos it.node_addr).2 ≤
          0 := by
        rw [create_leaf_ctr]
        omega
      have hpos2 : pos < (create_new_edge_to_leaf_from_node t lc pos
          it.node_addr).1.expanded_string.length := by
        rw [create_leaf_expanded]
        exact hpos
      have hfuel2 : d it1.node_addr.toNat + it1.position + 1 < (fuel : Int) := by
        push_cast at hfuel
        omega
      obtain ⟨t', lc', it', heq, a1, a2, a3, a4, a5, a6, a7⟩ :=
        stage2_node_loop_term fuel _ _ pos it1 d hS2 hR2 hd2 hinv1 hlc2 hpos2
          hfuel2
      refine ⟨t', lc', it', ?_, a1, a2, a3, a4, a5, ?_, ?_⟩
      · simp only [stage2_node_loop]
        rw [if_pos hcond]
        rw [hgo]
        exact heq
      · omega
      · rw [a7, create_leaf_expanded]
    · refine ⟨t, lc, it, ?_, hS, hR, hd, hit, hlc, le_refl _, rfl⟩
      simp only [stage2_node_loop]
      rw [if_neg hcond]

/-- The split loop of second_stage terminates within any fuel exceeding the
entry potential plus one.  The returned ghost depth extends the input one;
the last-created node stays strictly deeper than the final iterator. -/
theorem stage2_split_loop_term :
    ∀ (fuel : Nat) (t : SuffixTree) (lc : Int) (pos : Nat) (last : Int)
      (it : InnerPosition) (d : Nat → Int),
      SInv t → RootLinkOK t → DepthOK t d → ItInv t it → lc ≤ 0 →
      pos < t.expanded_string.length →
      d it.node_addr.toNat + it.position + 1 < (fuel : Int) →
      2 ≤ last.toNat → last.toNat < t.node_allocator.length →
      d it.node_addr.toNat + it.position ≤ d last.toNat - 1 →
      ∃ t' lc' last' it' d2, stage2_split_loop fuel t lc pos last it =
          some (t', lc', last', it') ∧
        SInv t' ∧ RootLinkOK t' ∧ DepthOK t' d2 ∧ ItInv t' it' ∧ lc' ≤ 0 ∧
        d2 it'.node_addr.toNat + it'.position ≤
          d it.node_addr.toNat + it.position ∧
        t'.expanded_string = t.expanded_string ∧
        2 ≤ last'.toNat ∧ last'.toNat < t'.node_allocator.length ∧
        d2 it'.node_addr.toNat + it'.position ≤ d2 last'.toNat - 1
  | 0, t, lc, pos, last, it, d, hS, hR, hd, hit, hlc, hpos, hfuel, hl2, hllt,
      hlphi => by
    have hlb := depth_lb t d hd it.node_addr.toNat
    have hp0 := hit.1.1
    exact absurd hfuel (by push_cast; omega)
  | fuel + 1, t, lc, pos, last, it, d, hS, hR, hd, hit, hlc, hpos, hfuel, hl2,
      hllt, hlphi => by
    by_cases hcond : is_position_in_edge_without_path t pos it = true
    · have hz : ¬ it.position = 0 := in_edge_pos t pos it hcond
      have hp : (0:Int) < it.position := by
        have := hit.1.1
        omega
      obtain ⟨hv, hlt⟩ := hit.1.2 hp
      obtain ⟨he0, hn1, hvn⟩ := split_facts t it hS hit hp hlt
      have hcnt := add_node_in_node_count t it hv
      have hS1 := sinv_add_node t it hS hit hp hlt
      have hR1 := rootlink_add_node t it hv hR (by omega)
      have hd1 := depthok_add_node t it d hS hd hit hp hlt
      -- the stitch of the previously created node
      have hS2 := sinv_set_suffix (add_node_in t it).1 last (add_node_in t it).2
        hS1 (by rw [add_node_in_node, hcnt]; push_cast; omega)
      have hR2 := rootlink_set_suffix (add_node_in t it).1 last
        (add_node_in t it).2 hR1 (by omega)
      have hd2 := depthok_set_suffix (add_node_in t it).1 last
        (add_node_in t it).2 _ hd1 (by
          right
          rw [add_node_in_node]
          simp only [Int.toNat_natCast]
          rw [if_true]
          rw [if_neg (by omega)]
          omega)
      -- the new leaf on the new node
      have hposx : pos < (set_suffix_connection (add_node_in t it).1 last
          (add_node_in t it).2).expanded_string.length := hpos
      have hn1x : ((add_node_in t it).2).toNat ≠ 1 := by
        rw [add_node_in_node]
        simp only [Int.toNat_natCast]
        omega
      have hS3 := sinv_create_leaf _ lc pos (add_node_in t it).2 hS2 hposx hlc
        hn1x
      have hR3 := rootlink_create_leaf _ lc pos (add_node_in t it).2 hR2
      have hd3 := depthok_create_leaf _ lc pos (add_node_in t it).2 _ hS2 hd2
        hposx hlc hn1x
      -- canonize
      obtain ⟨it1, hgo, hphi1, hinv1⟩ := go_conn_term _ _ hS3 hd3 it
        (le_of_lt hp) hn1
      have hlcx : (create_new_edge_to_leaf_from_node
          (set_suffix_connection (add_node_in t it).1 last (add_node_in t it).2)
          lc pos (add_node_in t it).2).2 ≤ 0 := by
        rw [create_leaf_ctr]
        omega
      have hposy : pos < (create_new_edge_to_leaf_from_node
          (set_suffix_connection (add_node_in t it).1 last (add_node_in t it).2)
          lc pos (add_node_in t it).2).1.expanded_string.length := by
        rw [create_leaf_expanded]
        exact hposx
      have hd1n : (if it.node_addr.toNat = t.node_allocator.length
          then d it.node_addr.toNat + it.position
          else d it.node_addr.toNat) = d it.node_addr.toNat := by
        rw [if_neg (by omega)]
      rw [hd1n] at hphi1
      have hfuel1 : (fun m => if m = t.node_allocator.length
          then d it.node_addr.toNat + it.position else d m)
          it1.node_addr.toNat + it1.position + 1 < (fuel : Int) := by
        simp only []
        push_cast at hfuel
        omega
      have hl2x : (2:Nat) ≤ ((add_node_in t it).2).toNat := by
        rw [add_node_in_node]
        simp only [Int.toNat_natCast]
        have : 2 ≤ t.node_allocator.length := hS.2.2.2.1.2.1
        omega
      have hlltx : ((add_node_in t it).2).toNat <
          (create_new_edge_to_leaf_from_node
            (set_suffix_connection (add_node_in t it).1 last
              (add_node_in t it).2)
            lc pos (add_node_in t it).2).1.node_allocator.length := by
        rw [create_leaf_node_count, set_suffix_node_count, hcnt,
          add_node_in_node]
        simp only [Int.toNat_natCast]
        omega
      have hlphix : (fun m => if m = t.node_allocator.length
          then d it.node_addr.toNat + it.position else d m)
          it1.node_addr.toNat + it1.position ≤
          (fun m => if m = t.node_allocator.length
            then d it.node_addr.toNat + it.position else d m)
            ((add_node_in t it).2).toNat - 1 := by
        simp only [add_node_in_node, Int.toNat_natCast, eq_self_iff_true,
          if_true]
        omega
      obtain ⟨t', lc', last', it', d2, heq, a1, a2, a3, a4, a5, a6, a7, a8, a9,
        a10⟩ := stage2_split_loop_term fuel _ _ pos (add_node_in t it).2 it1 _
          hS3 hR3 hd3 hinv1 hlcx hposy hfuel1 hl2x hlltx hlphix
      refine ⟨t', lc', last', it', d2, ?_, a1, a2, a3, a4, a5, ?_, ?_, a8, a9,
        a10⟩
      · simp only [stage2_split_loop]
        rw [if_pos hcond]
        rw [hgo]
        exact heq
      · omega
      · rw [a7, create_leaf_expanded]
        rfl
    · refine ⟨t, lc, last, it, d, ?_, hS, hR, hd, hit, hlc, le_refl _, rfl,
        hl2, hllt, hlphi⟩
      simp only [stage2_split_loop]
      rw [if_neg hcond]

/-- The rule-3 one-letter descent keeps the iterator invariant and increases
the potential by at most one. -/
theorem third_stage_term (t : SuffixTree) (pos : Nat) (it : InnerPosition)
    (d : Nat → Int) (hS : SInv t) (hd : DepthOK t d) (hit : ItInv t it) :
    ItInv t (third_stage t pos it) ∧
      d (third_stage t pos it).node_addr.toNat +
          (third_stage t pos it).position ≤
        d it.node_addr.toNat + it.position + 1 := by
  simp only [third_stage, go_over_one_letter_next]
  by_cases hz : it.position = 0
  · rw [if_pos hz]
    obtain ⟨hlen2, hdep2, hnb2, hval2⟩ := child_edge_facts t d hS hd
      it.node_addr (charAt t.expanded_string (pos : Int))
    simp only []
    by_cases hdesc : it.position + 1 = (get_edge_by t
        (child_of t it.node_addr
          (charAt t.expanded_string (pos : Int)))).length
    · rw [if_pos hdesc]
      refine ⟨⟨ItOK_zero t _ _, ?_, ?_⟩, ?_⟩
      · intro hp
        exact absurd hp (by simp)
      · simpa using hnb2
      · simp only []
        omega
    · rw [if_neg hdesc]
      have hbig : 1 < (get_edge_by t (child_of t it.node_addr
          (charAt t.expanded_string (pos : Int)))).length := by omega
      obtain ⟨hge, hvv, s1, hs1⟩ := hval2 hbig
      refine ⟨⟨⟨?_, ?_⟩, ?_, ?_⟩, ?_⟩
      · simp only []
        omega
      · intro _
        exact ⟨by simpa using hvv, by simp only []; omega⟩
      · intro _
        exact ⟨s1, by simpa using hs1⟩
      · simpa using hit.2.2
      · simp only []
        omega
  · rw [if_neg hz]
    have hp : (0:Int) < it.position := by
      have := hit.1.1
      omega
    obtain ⟨hv, hlt⟩ := hit.1.2 hp
    obtain ⟨he0, hn1, hvn⟩ := split_facts t it hS hit hp hlt
    obtain ⟨s0, hs0⟩ := hit.2.1 hp
    have hinst := hd.2.2.2.2.1 it.node_addr.toNat s0 hvn
      (by rw [hs0]; exact he0)
    rw [hs0] at hinst
    have hnext := hS.2.2.2.2.1 _ (get_edge_mem t _ hv)
    by_cases hdesc : it.position + 1 = (get_edge_by t it.edge_addr).length
    · rw [if_pos hdesc]
      refine ⟨⟨ItOK_zero t _ _, ?_, ?_⟩, ?_⟩
      · intro hpx
        exact absurd hpx (by simp)
      · simpa using hnext
      · simp only []
        omega
    · rw [if_neg hdesc]
      refine ⟨⟨⟨?_, ?_⟩, ?_, ?_⟩, ?_⟩
      · simp only []
        omega
      · intro _
        exact ⟨by simpa using hv, by simp only []; omega⟩
      · intro _
        exact ⟨s0, by simpa using hs0⟩
      · simpa using hit.2.2
      · simp only []
        omega

/-- second_stage always succeeds when entered with potential at most the
current position, and exits with potential at most the current position. -/
theorem second_stage_term (t : SuffixTree) (lc : Int) (pos : Nat)
    (it : InnerPosition) (d : Nat → Int) (hS : SInv t) (hR : RootLinkOK t)
    (hd : DepthOK t d) (hit : ItInv t it) (hlc : lc ≤ 0)
    (hpos : pos < t.expanded_string.length)
    (hphi : d it.node_addr.toNat + it.position ≤ (pos : Int)) :
    ∃ t1 lc1 it1 d1, second_stage t lc pos it = some (t1, lc1, it1) ∧
      SInv t1 ∧ RootLinkOK t1 ∧ DepthOK t1 d1 ∧ ItInv t1 it1 ∧ lc1 ≤ 0 ∧
      d1 it1.node_addr.toNat + it1.position ≤ (pos : Int) ∧
      t1.expanded_string = t.expanded_string := by
  have hlast0 : (get_node_by t t.root_addr).suffix_connection = 1 := by
    have hroot : t.root_addr = 0 := hS.2.2.2.1.2.2.1
    have h2 : 2 ≤ t.node_allocator.length := hS.2.2.2.1.2.1
    unfold get_node_by
    rw [hroot]
    exact hR
  by_cases hcond : is_position_in_edge_without_path t pos it = true
  · -- a split happens before the loop (no stitch for it)
    have hz : ¬ it.position = 0 := in_edge_pos t pos it hcond
    have hp : (0:Int) < it.position := by
      have := hit.1.1
      omega
    obtain ⟨hv, hlt⟩ := hit.1.2 hp
    obtain ⟨he0, hn1, hvn⟩ := split_facts t it hS hit hp hlt
    have hcnt := add_node_in_node_count t it hv
    have h2 : 2 ≤ t.node_allocator.length := hS.2.2.2.1.2.1
    have hS1 := sinv_add_node t it hS hit hp hlt
    have hR1 := rootlink_add_node t it hv hR (by omega)
    have hd1 := depthok_add_node t it d hS hd hit hp hlt
    have hn1x : ((add_node_in t it).2).toNat ≠ 1 := by
      rw [add_node_in_node]
      simp only [Int.toNat_natCast]
      omega
    have hposx : pos < (add_node_in t it).1.expanded_string.length := hpos
    have hS2 := sinv_create_leaf _ lc pos (add_node_in t it).2 hS1 hposx hlc
      hn1x
    have hR2 := rootlink_create_leaf _ lc pos (add_node_in t it).2 hR1
    have hd2 := depthok_create_leaf _ lc pos (add_node_in t it).2 _ hS1 hd1
      hposx hlc hn1x
    obtain ⟨it1, hgo, hphi1, hinv1⟩ := go_conn_term _ _ hS2 hd2 it
      (le_of_lt hp) hn1
    have hd1n : (if it.node_addr.toNat = t.node_allocator.length
        then d it.node_addr.toNat + it.position
        else d it.node_addr.toNat) = d it.node_addr.toNat := by
      rw [if_neg (by omega)]
    rw [hd1n] at hphi1
    have hlcx : (create_new_edge_to_leaf_from_node (add_node_in t it).1 lc pos
        (add_node_in t it).2).2 ≤ 0 := by
      rw [create_leaf_ctr]
      omega
    have hposy : pos < (create_new_edge_to_leaf_from_node (add_node_in t it).1
        lc pos (add_node_in t it).2).1.expanded_string.length := by
      rw [create_leaf_expanded]
      exact hposx
    have hfuel1 : (fun m => if m = t.node_allocator.length
        then d it.node_addr.toNat + it.position else d m)
        it1.node_addr.toNat + it1.position + 1 < ((pos + 2 : Nat) : Int) := by
      simp only []
      push_cast
      omega
    have hl2x : (2:Nat) ≤ ((add_node_in t it).2).toNat := by
      rw [add_node_in_node]
      simp only [Int.toNat_natCast]
      omega
    have hlltx : ((add_node_in t it).2).toNat <
        (create_new_edge_to_leaf_from_node (add_node_in t it).1 lc pos
          (add_node_in t it).2).1.node_allocator.length := by
      rw [create_leaf_node_count, hcnt, add_node_in_node]
      simp only [Int.toNat_natCast]
      omega
    have hlphix : (fun m => if m = t.node_allocator.length
        then d it.node_addr.toNat + it.position else d m)
        it1.node_addr.toNat + it1.position ≤
        (fun m => if m = t.node_allocator.length
          then d it.node_addr.toNat + it.position else d m)
          ((add_node_in t it).2).toNat - 1 := by
      simp only [add_node_in_node, Int.toNat_natCast, eq_self_iff_true,
        if_true]
      omega
    obtain ⟨t', lc', last', it2, d2, heq, a1, a2, a3, a4, a5, a6, a7, a8, a9,
      a10⟩ := stage2_split_loop_term (pos + 2) _ _ pos (add_node_in t it).2 it1
        _ hS2 hR2 hd2 hinv1 hlcx hposy hfuel1 hl2x hlltx hlphix
    -- the final stitch
    have hS3 := sinv_set_suffix t' last' it2.node_addr a1
      (by have := a4.2.2; omega)
    have hR3 := rootlink_set_suffix t' last' it2.node_addr a2 (by omega)
    have hd3 := depthok_set_suffix t' last' it2.node_addr d2 a3 (by
      right
      have hpos0 := a4.1.1
      omega)
    have hinv3 := itinv_set_suffix t' last' it2.node_addr it2 a4
    have hfuel3 : d2 it2.node_addr.toNat + it2.position + 1 <
        ((pos + 2 : Nat) : Int) := by
      push_cast
      omega
    have hpos3 : pos < (set_suffix_connection t' last'
        it2.node_addr).expanded_string.length := by
      rw [set_suffix_expanded, a7, create_leaf_expanded]
      exact hposx
    obtain ⟨t4, lc4, it4, heq4, b1, b2, b3, b4, b5, b6, b7⟩ :=
      stage2_node_loop_term (pos + 2) _ _ pos it2 d2 hS3 hR3 hd3 hinv3 a5
        hpos3 hfuel3
    refine ⟨t4, lc4, it4, d2, ?_, b1, b2, b3, b4, b5, by omega, ?_⟩
    · simp only [second_stage]
      rw [if_pos hcond]
      simp only [hgo]
      simp only [heq]
      exact heq4
    · rw [b7, set_suffix_expanded, a7, create_leaf_expanded]
      rfl
  · -- no split: the loop is skipped and the stitch scribbles the dummy
    have hS3 := sinv_set_suffix t ((get_node_by t t.root_addr).suffix_connection)
      it.node_addr hS (by have := hit.2.2; omega)
    have hR3 := rootlink_set_suffix t
      ((get_node_by t t.root_addr).suffix_connection) it.node_addr hR
      (by rw [hlast0]; omega)
    have hd3 := depthok_set_suffix t
      ((get_node_by t t.root_addr).suffix_connection) it.node_addr d hd
      (by left; rw [hlast0]; rfl)
    have hinv3 := itinv_set_suffix t
      ((get_node_by t t.root_addr).suffix_connection) it.node_addr it hit
    have hfuel3 : d it.node_addr.toNat + it.position + 1 <
        ((pos + 2 : Nat) : Int) := by
      push_cast
      omega
    have hpos3 : pos < (set_suffix_connection t
        ((get_node_by t t.root_addr).suffix_connection)
        it.node_addr).expanded_string.length := hpos
    obtain ⟨t4, lc4, it4, heq4, b1, b2, b3, b4, b5, b6, b7⟩ :=
      stage2_node_loop_term (pos + 2) _ _ pos it d hS3 hR3 hd3 hinv3 hlc hpos3
        hfuel3
    refine ⟨t4, lc4, it4, d, ?_, b1, b2, b3, b4, b5, by omega, ?_⟩
    · simp only [second_stage]
      rw [if_neg hcond]
      exact heq4
    · rw [b7, set_suffix_expanded]

/-- The construction loop over positions a, a+1, ... never fails when entered
with potential at most a. -/
theorem construct_loop_term :
    ∀ (n a : Nat) (t : SuffixTree) (lc : Int) (it : InnerPosition)
      (d : Nat → Int),
      SInv t → RootLinkOK t → DepthOK t d → ItInv t it → lc ≤ 0 →
      a + n = t.expanded_string.length →
      d it.node_addr.toNat + it.position ≤ (a : Int) →
      ∃ r, construct_loop (List.range' a n) t lc it = some r
  | 0, a, t, lc, it, d, hS, hR, hd, hit, hlc, hN, hphi => ⟨(t, lc, it), rfl⟩
  | n + 1, a, t, lc, it, d, hS, hR, hd, hit, hlc, hN, hphi => by
    rw [List.range'_succ]
    have hpos : a < t.expanded_string.length := by omega
    obtain ⟨t1, lc1, it2, d1, heq, a1, a2, a3, a4, a5, a6, a7⟩ :=
      second_stage_term t lc a it d hS hR hd hit hlc hpos hphi
    obtain ⟨hinv3, hphi3⟩ := third_stage_term t1 a it2 d1 a1 a3 a4
    have hN1 : (a + 1) + n = t1.expanded_string.length := by
      rw [a7]
      omega
    have hphi1 : d1 (third_stage t1 a it2).node_addr.toNat +
        (third_stage t1 a it2).position ≤ ((a + 1 : Nat) : Int) := by
      push_cast
      omega
    obtain ⟨r, hr⟩ := construct_loop_term n (a + 1) t1 lc1
      (third_stage t1 a it2) d1 a1 a2 a3 hinv3 a5 hN1 hphi1
    refine ⟨r, ?_⟩
    simp only [construct_loop, first_stage]
    simp only [heq]
    exact hr

/-- construct_tree always succeeds from a state satisfying the invariants. -/
theorem construct_tree_term (t0 : SuffixTree) (lc : Int) (d : Nat → Int)
    (hS : SInv t0) (hR : RootLinkOK t0) (hd : DepthOK t0 d) (hlc : lc ≤ 0) :
    ∃ r, construct_tree t0 lc = some r := by
  have hroot : t0.root_addr = 0 := hS.2.2.2.1.2.2.1
  have h2 : 2 ≤ t0.node_allocator.length := hS.2.2.2.1.2.1
  have hit : ItInv t0 { node_addr := t0.root_addr,
                        edge_addr := no_connection,
                        position := 0 } := by
    refine ⟨ItOK_zero t0 _ _, ?_, ?_⟩
    · intro hp
      exact absurd hp (by simp)
    · simp only [hroot]
      omega
  have hphi : d ({ node_addr := t0.root_addr,
                   edge_addr := no_connection,
                   position := 0 } : InnerPosition).node_addr.toNat +
      ({ node_addr := t0.root_addr,
         edge_addr := no_connection,
         position := 0 } : InnerPosition).position ≤ ((0 : Nat) : Int) := by
    simp only [hroot, Int.toNat_zero, hd.1]
    omega
  obtain ⟨r, hr⟩ := construct_loop_term t0.expanded_string.length 0 t0 lc
    { node_addr := t0.root_addr, edge_addr := no_connection, position := 0 }
    d hS hR hd hit hlc (by omega) hphi
  refine ⟨(r.1, r.2.1), ?_⟩
  unfold construct_tree
  rw [List.range_eq_range']
  rw [hr]
  rfl

/-- Closed form of the constructor state before construct_tree: root and dummy
nodes (both linked to the dummy at index 1), with one length-1 dummy edge back
to the root per alphabet slot. -/
theorem init_tree_closed (A s : List Nat) :
    init_tree A s =
      { alphabet := A, expanded_string := s ++ [terminal_symbol],
        root_addr := 0,
        node_allocator :=
          [{ suffix_connection := 1,
             edges_to_childs := List.replicate A.length no_connection },
           { suffix_connection := 1,
             edges_to_childs := (List.range A.length).map
               (Nat.cast : Nat → Int) }],
        edge_allocator := List.replicate A.length
          { start_position := -1, length := 1, next_node_addr := 0 } } := by
  have hfold : ∀ j, j ≤ A.length →
      (List.range j).foldl
        (fun acc i =>
          set_child_slot
            (set_edge (allocate_edge acc).1 (allocate_edge acc).2
              { start_position := -1, length := 1,
                next_node_addr := (allocate_edge acc).1.root_addr })
            1 i (allocate_edge acc).2)
        { alphabet := A, expanded_string := s ++ [terminal_symbol],
          root_addr := 0,
          node_allocator :=
            [{ suffix_connection := 0,
               edges_to_childs := List.replicate A.length no_connection },
             { suffix_connection := 1,
               edges_to_childs := List.replicate A.length no_connection }],
          edge_allocator := [] } =
      { alphabet := A, expanded_string := s ++ [terminal_symbol],
        root_addr := 0,
        node_allocator :=
          [{ suffix_connection := 0,
             edges_to_childs := List.replicate A.length no_connection },
           { suffix_connection := 1,
             edges_to_childs := (List.range j).map (Nat.cast : Nat → Int) ++
               List.replicate (A.length - j) no_connection }],
        edge_allocator := List.replicate j
          { start_position := -1, length := 1, next_node_addr := 0 } } := by
    intro j
    induction j with
    | zero =>
      intro _
      simp
    | succ j ih =>
      intro hj
      rw [List.range_succ, List.foldl_append]
      rw [ih (by omega)]
      have hkids : (((List.range j).map (Nat.cast : Nat → Int) ++
          List.replicate (A.length - j) no_connection).set j
            ((j : Nat) : Int)) =
          (List.range (j+1)).map (Nat.cast : Nat → Int) ++
            List.replicate (A.length - (j+1)) no_connection := by
        have hlm : ((List.range j).map (Nat.cast : Nat → Int)).length = j := by
          simp
        have hsub : A.length - j = (A.length - (j+1)) + 1 := by omega
        rw [hsub, List.replicate_succ]
        rw [← hlm, List.set_append]
        simp [List.range_succ]
      simp only [List.foldl_cons, List.foldl_nil, allocate_edge, set_edge,
        set_child_slot, set_node, get_node_by, Int.toNat_natCast,
        Int.toNat_one, List.getD_cons_succ, List.getD_cons_zero]
      rw [set_append_last]
      simp only [List.length_replicate]
      rw [hkids]
      simp [List.replicate_succ', List.set_cons_succ, List.set_cons_zero,
        List.range_succ]
  have hmain := hfold A.length (le_refl _)
  unfold init_tree create_dummy_node
  simp only [allocate_node, set_suffix_connection, set_node, get_node_by]
  simp only [List.length_nil, List.length_cons, List.length_append,
    Int.toNat_natCast, Int.toNat_zero, Int.toNat_one, List.getD_cons_succ,
    List.getD_cons_zero, List.nil_append, List.set_cons_zero,
    List.set_cons_succ, Nat.cast_zero, Nat.cast_one, Nat.zero_add,
    List.singleton_append, List.cons_append]
  rw [hmain]
  simp

/-- The freshly initialised tree satisfies the whole termination invariant,
with ghost depth 0 for the root, -1 for the dummy and 1 elsewhere. -/
theorem init_tree_sinv (A s : List Nat) (hk : 1 ≤ A.length) :
    SInv (init_tree A s) ∧ RootLinkOK (init_tree A s) ∧
      DepthOK (init_tree A s)
        (fun m => if m = 0 then 0 else if m = 1 then -1 else 1) := by
  have hchild : ∀ i s2, childAt (init_tree A s) i s2 = no_connection ∨
      (i = 1 ∧ s2 < A.length ∧ childAt (init_tree A s) i s2 = (s2 : Int)) := by
    intro i s2
    rw [init_tree_closed]
    match i with
    | 0 =>
      left
      unfold childAt
      simp only [List.getD_cons_zero]
      by_cases hs : s2 < A.length
      · exact getD_replicate_lt _ _ _ _ hs
      · exact getD_replicate_ge _ _ _ _ (le_of_not_lt hs)
    | 1 =>
      unfold childAt
      simp only [List.getD_cons_succ, List.getD_cons_zero]
      by_cases hs : s2 < A.length
      · right
        refine ⟨by trivial, hs, ?_⟩
        rw [getD_lt _ _ _ (by simpa using hs)]
        simp
      · left
        exact getD_ge _ _ _ (by simpa using le_of_not_lt hs)
    | n + 2 =>
      left
      unfold childAt
      rw [getD_ge _ _ _ (by simp)]
  rw [init_tree_closed] at hchild ⊢
  refine ⟨⟨?_, ?_, ?_, ?_, ?_, ?_, ?_⟩, ?_, ?_, ?_, ?_, ?_, ?_, ?_⟩
  · -- EdgesGood
    intro e he
    rw [List.eq_of_mem_replicate he]
    refine ⟨le_refl _, ?_⟩
    intro hneg
    simp only [] at hneg
    exact absurd hneg (by norm_num)
  · -- NodesGood
    intro nd hnd x hx
    simp only [List.mem_cons, List.not_mem_nil, or_false] at hnd
    rcases hnd with h1 | h1
    · subst h1
      simp only [] at hx
      exact Or.inl (List.eq_of_mem_replicate hx)
    · subst h1
      simp only [List.mem_map, List.mem_range] at hx
      obtain ⟨i, hi, hix⟩ := hx
      refine Or.inr ⟨by omega, ?_⟩
      rw [← hix]
      simp only [Int.toNat_natCast, List.length_replicate]
      exact hi
  · -- PLenK
    intro nd hnd
    simp only [List.mem_cons, List.not_mem_nil, or_false] at hnd
    rcases hnd with h1 | h1 <;> subst h1 <;> simp
  · -- DummyOK
    refine ⟨hk, by simp, rfl, ?_, ?_⟩
    · intro i hi
      rcases hchild 1 i with h1 | h1
      · exfalso
        unfold childAt at h1
        simp only [List.getD_cons_succ, List.getD_cons_zero] at h1
        rw [getD_lt _ _ _ (by simpa using hi)] at h1
        simp only [List.getElem_map, List.getElem_range] at h1
        have hge : (0:Int) ≤ (i : Int) := Int.natCast_nonneg _
        rw [h1] at hge
        exact absurd hge (by norm_num [no_connection])
      · exact h1.2.2
    · intro i hi
      unfold get_edge_by
      simp only [Int.toNat_natCast]
      exact getD_replicate_lt _ _ _ _ hi
  · -- NextBound
    intro e he
    rw [List.eq_of_mem_replicate he]
    simp
  · -- LinkBound
    intro nd hnd
    simp only [List.mem_cons, List.not_mem_nil, or_false] at hnd
    rcases hnd with h1 | h1 <;> subst h1 <;> simp
  · -- ParentUnique
    intro i1 s1 i2 s2 hge heq
    rcases hchild i1 s1 with a1 | a1
    · rw [a1] at hge
      exact absurd hge (by norm_num [no_connection])
    · rcases hchild i2 s2 with a2 | a2
      · rw [a2, a1.2.2] at heq
        have : (0:Int) ≤ (s1 : Int) := Int.natCast_nonneg _
        rw [heq] at this
        exact absurd this (by norm_num [no_connection])
      · rw [a1.2.2, a2.2.2] at heq
        refine ⟨a1.1.trans a2.1.symm, ?_⟩
        omega
  · -- RootLinkOK
    unfold RootLinkOK
    simp
  · -- DepthOK: root depth
    simp
  · -- dummy depth
    simp
  · -- out-of-range depth
    intro m hm
    simp only [List.length_cons, List.length_nil] at hm
    simp only []
    rw [if_neg (by omega), if_neg (by omega)]
  · -- nonnegative depths
    intro v hv hv1
    simp only [List.length_cons, List.length_nil] at hv
    have hv0 : v = 0 := by omega
    subst hv0
    simp
  · -- edge-depth inequality
    intro v s2 hv hge
    rcases hchild v s2 with a1 | a1
    · rw [a1] at hge
      exact absurd hge (by norm_num [no_connection])
    · obtain ⟨hv1, hslt, hval⟩ := a1
      subst hv1
      simp only [hval]
      unfold get_edge_by
      simp only [Int.toNat_natCast]
      have hE : (List.replicate A.length
          ({ start_position := -1, length := 1,
             next_node_addr := 0 } : Edge)).getD s2
          { start_position := 0, length := 0, next_node_addr := 0 } =
          { start_position := -1, length := 1, next_node_addr := 0 } :=
        getD_replicate_lt _ _ _ _ hslt
      simp only [hE]
      simp
  · -- link-depth inequality
    intro v hv hv1
    simp only [List.length_cons, List.length_nil] at hv
    have hv0 : v = 0 := by omega
    subst hv0
    simp

/-- Claim C7: for every valid input (every byte of the expanded source is an
alphabet member, which forces a nonempty alphabet) and every nonpositive
starting value of the process-wide leaf counter, the construction runs to
completion: the top-level loop, the stage-2 suffix-link loops and the
skip/count loop of the canonize procedure all finish, so the model never
exhausts its fuel and returns a tree. -/
theorem construction_terminates (A s : List Nat) (lc : Int)
    (hA : is_alphabet_of A (s ++ [terminal_symbol]) = true) (hlc : lc ≤ 0) :
    ∃ t, build_from A s lc = some t := by
  have hk : 1 ≤ A.length := by
    have hmem : terminal_symbol ∈ s ++ [terminal_symbol] := by simp
    have hall := List.all_eq_true.mp hA terminal_symbol hmem
    have hidx : 0 ≤ alphabet_index_of A terminal_symbol :=
      of_decide_eq_true hall
    obtain ⟨hb1, hb2⟩ := alphabet_index_of_bounds A terminal_symbol
    omega
  obtain ⟨hS, hR, hd⟩ := init_tree_sinv A s hk
  obtain ⟨r, hr⟩ := construct_tree_term (init_tree A s) lc _ hS hR hd hlc
  refine ⟨r.1, ?_⟩
  unfold build_from
  rw [hr]
  rfl

theorem construction_terminates_witness :
    is_alphabet_of (suffixTreeAlphabet [1]) ([1] ++ [terminal_symbol]) =
        true ∧
      (0:Int) ≤ 0 ∧
      ∃ t, build_from (suffixTreeAlphabet [1]) [1] 0 = some t :=
  ⟨by decide, le_refl 0,
    construction_terminates (suffixTreeAlphabet [1]) [1] 0 (by decide)
      (le_refl 0)⟩

end SuffixTreeModel
